import Mathlib

/-!
# Verification of the CSP Timetable core

A shallow embedding of the CSP timetable generator (`models.py`,
`constraints.py`, `problem_builder.py`, `solver.py`, `soft_constraints.py`)
together with proofs about the embedded definitions.

Python dictionaries are modelled as insertion-ordered association lists
(`dinsert` updates in place, `derase` removes, `dget` looks up the first
matching key).  Python `float` arithmetic is modelled exactly over `ℚ`
(and `ℝ` where a square root occurs).  The wall-clock timeout check and
`random.shuffle` are modelled as oracles indexed by the solver's iteration
counter: any concrete timing or random behaviour corresponds to some
oracle.  Recursion in `_backtrack` is made total with a fuel parameter;
fuel exhaustion returns failure with the state unchanged, a branch no run
with enough fuel ever hits.
-/

namespace CSPTimetable

/-- An assignment value: `(timeslot_id, room_id, instructor_id)`. -/
abbrev Value := String × String × String

/-! ## Insertion-ordered dictionaries (Python `dict`) -/

/-- `d[k] = v` on a Python dict: update in place if the key exists,
otherwise append at the end. -/
def dinsert {κ α : Type} [DecidableEq κ] (m : List (κ × α)) (k : κ) (v : α) :
    List (κ × α) :=
  if m.any (fun p => decide (p.1 = k)) then
    m.map (fun p => if p.1 = k then (k, v) else p)
  else m ++ [(k, v)]

/-- `d.get(k)` on a Python dict. -/
def dget {κ α : Type} [DecidableEq κ] (m : List (κ × α)) (k : κ) : Option α :=
  (m.find? (fun p => decide (p.1 = k))).map (fun p => p.2)

/-- `d.get(k, default)` on a Python dict. -/
def dgetD {κ α : Type} [DecidableEq κ] (m : List (κ × α)) (k : κ) (d : α) : α :=
  (dget m k).getD d

/-- `del d[k]` on a Python dict. -/
def derase {κ α : Type} [DecidableEq κ] (m : List (κ × α)) (k : κ) :
    List (κ × α) :=
  m.filter (fun p => decide (p.1 ≠ k))

theorem dget_nil {κ α : Type} [DecidableEq κ] (k : κ) :
    dget (α := α) [] k = none := rfl

theorem dget_append {κ α : Type} [DecidableEq κ] (m m' : List (κ × α)) (k : κ) :
    dget (m ++ m') k = ((dget m k).orElse (fun _ => dget m' k)) := by
  induction m with
  | nil => simp [dget]
  | cons p rest ih =>
    by_cases h : p.1 = k
    · simp [dget, List.find?, h]
    · simpa [dget, List.find?, h] using ih

theorem dget_cons {κ α : Type} [DecidableEq κ] (p : κ × α) (m : List (κ × α))
    (k : κ) : dget (p :: m) k = if p.1 = k then some p.2 else dget m k := by
  by_cases h : p.1 = k <;> simp [dget, List.find?, h]

theorem dget_eq_none_iff {κ α : Type} [DecidableEq κ] (m : List (κ × α))
    (k : κ) : dget m k = none ↔ ∀ p ∈ m, p.1 ≠ k := by
  simp [dget, List.find?_eq_none]

theorem dget_map_update_self {κ α : Type} [DecidableEq κ] (m : List (κ × α))
    (k : κ) (v : α) (h : ∃ p ∈ m, p.1 = k) :
    dget (m.map (fun p => if p.1 = k then (k, v) else p)) k = some v := by
  induction m with
  | nil => simp at h
  | cons q rest ih =>
    by_cases hqk : q.1 = k
    · simp [dget_cons, hqk]
    · have hrest : ∃ p ∈ rest, p.1 = k := by
        rcases h with ⟨p, hp, hpk⟩
        rcases List.mem_cons.mp hp with rfl | hmem
        · exact absurd hpk hqk
        · exact ⟨p, hmem, hpk⟩
      simpa [dget_cons, hqk] using ih hrest

theorem dget_map_update_ne {κ α : Type} [DecidableEq κ] (m : List (κ × α))
    (k k' : κ) (v : α) (h : k' ≠ k) :
    dget (m.map (fun p => if p.1 = k then (k, v) else p)) k' = dget m k' := by
  induction m with
  | nil => rfl
  | cons q rest ih =>
    by_cases hqk : q.1 = k
    · have h1 : q.1 ≠ k' := fun hh => h (hh.symm.trans hqk)
      have h2 : k ≠ k' := fun hh => h hh.symm
      simp [dget_cons, hqk, h1, h2, ih]
    · simp [dget_cons, hqk, ih]

theorem dget_dinsert_self {κ α : Type} [DecidableEq κ] (m : List (κ × α))
    (k : κ) (v : α) : dget (dinsert m k v) k = some v := by
  unfold dinsert
  by_cases h : m.any (fun p => decide (p.1 = k)) = true
  · rw [if_pos h]
    rcases List.any_eq_true.mp h with ⟨p, hp, hpk⟩
    exact dget_map_update_self m k v ⟨p, hp, by simpa using hpk⟩
  · rw [if_neg h]
    have hnone : dget m k = none := by
      rw [dget_eq_none_iff]
      intro p hp hpk
      exact h (List.any_eq_true.mpr ⟨p, hp, by simpa using hpk⟩)
    rw [dget_append, hnone]
    simp [dget, List.find?]

theorem dget_dinsert_ne {κ α : Type} [DecidableEq κ] (m : List (κ × α))
    (k k' : κ) (v : α) (h : k' ≠ k) :
    dget (dinsert m k v) k' = dget m k' := by
  unfold dinsert
  by_cases hany : m.any (fun p => decide (p.1 = k)) = true
  · rw [if_pos hany]
    exact dget_map_update_ne m k k' v h
  · rw [if_neg hany]
    rw [dget_append]
    have hone : dget [(k, v)] k' = none := by
      simp [dget, List.find?, decide_eq_false (Ne.symm h)]
    rw [hone]
    cases dget m k' <;> rfl

theorem derase_dinsert_of_dget_none {κ α : Type} [DecidableEq κ]
    (m : List (κ × α)) (k : κ) (v : α) (h : dget m k = none) :
    derase (dinsert m k v) k = m := by
  have hall : ∀ p ∈ m, p.1 ≠ k := (dget_eq_none_iff m k).mp h
  have hany : m.any (fun p => decide (p.1 = k)) = false := by
    rw [List.any_eq_false]
    intro p hp
    simpa using hall p hp
  unfold dinsert
  rw [if_neg (by simp [hany])]
  unfold derase
  rw [List.filter_append]
  have h1 : m.filter (fun p => decide (p.1 ≠ k)) = m :=
    List.filter_eq_self.mpr (fun p hp => by simpa using hall p hp)
  have h2 : [(k, v)].filter (fun p : κ × α => decide (p.1 ≠ k)) = [] := by
    simp [List.filter]
  rw [h1, h2, List.append_nil]

theorem length_dinsert_of_dget_none {κ α : Type} [DecidableEq κ]
    (m : List (κ × α)) (k : κ) (v : α) (h : dget m k = none) :
    (dinsert m k v).length = m.length + 1 := by
  have hall : ∀ p ∈ m, p.1 ≠ k := (dget_eq_none_iff m k).mp h
  have hany : m.any (fun p => decide (p.1 = k)) = false := by
    rw [List.any_eq_false]
    intro p hp
    simpa using hall p hp
  unfold dinsert
  rw [if_neg (by simp [hany])]
  simp

/-! ## Entity model (`models.py`) -/

/-- A lecture: one weekly teaching session, the CSP variable
(`models.Lecture`). -/
structure Lecture where
  courseId : String
  sectionId : String
  lectureNumber : Nat
deriving DecidableEq, Repr

/-- `Lecture.get_variable_name`: the identity key
`f"{section_id}_{course_id}_L{lecture_number}"`. -/
def Lecture.varName (l : Lecture) : String :=
  l.sectionId ++ "_" ++ l.courseId ++ "_L" ++ toString l.lectureNumber

/-- An assignment: Python dict from variable name to value. -/
abbrev Assignment := List (String × Value)

/-! ## Constraint checker (`constraints.py`)

All three hard-constraint checks in the source build the same kind of
grouping dict (`key -> list of var names`) with the same loop; `groupPairs`
is that shared loop, parameterised by the key extractor (which returns
`none` exactly where the source loop skips an item). -/

/-- One step of the grouping loop:
`if key not in d: d[key] = []` followed by `d[key].append(x)`. -/
def dappendGroup {κ α : Type} [DecidableEq κ] (m : List (κ × List α))
    (k : κ) (x : α) : List (κ × List α) :=
  match dget m k with
  | some xs => dinsert m k (xs ++ [x])
  | none => m ++ [(k, [x])]

/-- The grouping loop over `assignment.items()` shared by the three
hard-constraint checks and `get_conflicts`. -/
def groupPairs {κ : Type} [DecidableEq κ] (f : String × Value → Option κ)
    (items : Assignment) : List (κ × List String) :=
  items.foldl
    (fun m it =>
      match f it with
      | some k => dappendGroup m k it.1
      | none => m) []

/-- Key extractor for instructor grouping: `(instructor, timeslot)`. -/
def instructorKey (it : String × Value) : Option (String × String) :=
  some (it.2.2.2, it.2.1)

/-- Key extractor for room grouping: `(room, timeslot)`. -/
def roomKey (it : String × Value) : Option (String × String) :=
  some (it.2.2.1, it.2.1)

/-- `var_to_section`: dict from variable name to section id built from the
lecture list (later lectures overwrite earlier ones with the same name). -/
def varToSection (lectures : List Lecture) : List (String × String) :=
  lectures.foldl (fun m l => dinsert m l.varName l.sectionId) []

/-- Key extractor for the section grouping in `no_student_conflict`:
items whose variable name is not in `var_to_section` are skipped
(`if section_id is None: continue`). -/
def sectionKey (lectures : List Lecture) (it : String × Value) :
    Option (String × String) :=
  match dget (varToSection lectures) it.1 with
  | some s => some (s, it.2.1)
  | none => none

/-- Key extractor for the section grouping in `get_conflicts`: the source
uses the truthiness test `if section_id:`, which also skips an empty
section id. -/
def sectionKeyTruthy (lectures : List Lecture) (it : String × Value) :
    Option (String × String) :=
  match dget (varToSection lectures) it.1 with
  | some s => if s = "" then none else some (s, it.2.1)
  | none => none

/-- `TimetableConstraints.no_instructor_conflict`. -/
def noInstructorConflict (assignment : Assignment) : Bool :=
  (groupPairs instructorKey assignment).all (fun g => decide (g.2.length ≤ 1))

/-- `TimetableConstraints.no_room_conflict`. -/
def noRoomConflict (assignment : Assignment) : Bool :=
  (groupPairs roomKey assignment).all (fun g => decide (g.2.length ≤ 1))

/-- `TimetableConstraints.no_student_conflict`. -/
def noStudentConflict (assignment : Assignment) (lectures : List Lecture) :
    Bool :=
  (groupPairs (sectionKey lectures) assignment).all
    (fun g => decide (g.2.length ≤ 1))

/-- `TimetableConstraints.check_all_constraints`. -/
def checkAllConstraints (assignment : Assignment) (lectures : List Lecture) :
    Bool :=
  noInstructorConflict assignment && noRoomConflict assignment &&
    noStudentConflict assignment lectures

/-- `TimetableConstraints.is_consistent`: check all constraints on the
assignment extended with `var := value`. -/
def isConsistent (varName : String) (value : Value)
    (assignment : Assignment) (lectures : List Lecture) : Bool :=
  checkAllConstraints (dinsert assignment varName value) lectures

/-- Conflict message text (the Python list repr of the offending variable
names is abstracted to a comma-separated rendering; only the presence of a
message matters to the properties below). -/
def conflictMsg (kind key ts : String) (vars : List String) : String :=
  kind ++ " " ++ key ++ " has conflict at " ++ ts ++ ": " ++
    String.intercalate ", " vars

/-- The conflict records of one grouping in
`TimetableConstraints.get_conflicts`. -/
def conflictsOfGrouping (kind : String)
    (groups : List ((String × String) × List String)) : List String :=
  (groups.filter (fun g => decide (1 < g.2.length))).map
    (fun g => conflictMsg kind g.1.1 g.1.2 g.2)

/-- `TimetableConstraints.get_conflicts`. -/
def getConflicts (assignment : Assignment) (lectures : List Lecture) :
    List String :=
  conflictsOfGrouping "Instructor" (groupPairs instructorKey assignment) ++
    conflictsOfGrouping "Room" (groupPairs roomKey assignment) ++
    conflictsOfGrouping "Section"
      (groupPairs (sectionKeyTruthy lectures) assignment)

/-! ## Search engine (`solver.py`)

`TimetableSolver` holds the variables, the domain mapping and two
behaviours that are external to the algorithm: the wall-clock timeout
check and `random.shuffle`.  Both are modelled as oracles indexed by the
iteration counter (which is incremented exactly once at the start of each
`_backtrack` call, so it uniquely identifies the call): `timeOut n` is the
outcome of the elapsed-time comparison at iteration `n`, and `order n d`
is the shuffled copy of domain `d` produced at iteration `n`.  Recursion
is made total by a fuel parameter; exhausted fuel returns failure with the
state untouched. -/

/-- The solver's fixed data plus the timing and shuffling oracles. -/
structure SearchParams where
  lectures : List Lecture
  domains : List (String × List Value)
  order : Nat → List Value → List Value
  timeOut : Nat → Bool

/-- The solver's mutable state: `self.assignment` and `self.iterations`. -/
structure BTState where
  assignment : Assignment
  iterations : Nat
deriving DecidableEq, Repr

/-- The MRV count: how many values of the variable's domain are consistent
with the current assignment. -/
def remainingValues (P : SearchParams) (assignment : Assignment)
    (v : String) : Nat :=
  (dgetD P.domains v []).countP
    (fun value => isConsistent v value assignment P.lectures)

/-- The variable names of the unassigned lectures, in lecture-list order. -/
def unassignedVars (P : SearchParams) (assignment : Assignment) :
    List String :=
  (P.lectures.map Lecture.varName).filter
    (fun v => decide (dget assignment v = none))

/-- One step of the MRV minimum search (`remaining < min_remaining`
updates, so the first variable attaining the minimum wins; the initial
`float('inf')` is the `none` accumulator). -/
def selectStep (P : SearchParams) (assignment : Assignment)
    (acc : Option (String × Nat)) (v : String) : Option (String × Nat) :=
  let remaining := remainingValues P assignment v
  match acc with
  | none => some (v, remaining)
  | some (bv, br) =>
      if remaining < br then some (v, remaining) else some (bv, br)

/-- `TimetableSolver._select_unassigned_variable`. -/
def selectUnassignedVariable (P : SearchParams) (assignment : Assignment) :
    Option String :=
  ((unassignedVars P assignment).foldl (selectStep P assignment) none).map
    (fun p => p.1)

/-- The value loop of `TimetableSolver._backtrack`: try each ordered value;
on consistency commit it (`self.assignment[var_name] = value`), recurse,
and on failure undo the commit (`del self.assignment[var_name]`) before
trying the next value.  `recurse` is the recursive search at the remaining
fuel. -/
def tryValues (P : SearchParams)
    (recurse : BTState → Option Assignment × BTState) (v : String) :
    List Value → BTState → Option Assignment × BTState
  | [], st => (none, st)
  | value :: rest, st =>
    if isConsistent v value st.assignment P.lectures then
      match recurse { st with assignment := dinsert st.assignment v value } with
      | (some a, st2) => (some a, st2)
      | (none, st2) =>
          tryValues P recurse v rest
            { st2 with assignment := derase st2.assignment v }
    else tryValues P recurse v rest st

/-- `TimetableSolver._backtrack`: bump the iteration counter, check the
timeout, check completeness, select a variable by MRV, and try its
shuffled domain. -/
def backtrack (P : SearchParams) : Nat → BTState → Option Assignment × BTState
  | 0 => fun st => (none, st)
  | fuel + 1 => fun st =>
    let st1 : BTState := { st with iterations := st.iterations + 1 }
    if P.timeOut st1.iterations then (none, st1)
    else if st1.assignment.length = P.lectures.length then
      (some st1.assignment, st1)
    else
      match selectUnassignedVariable P st1.assignment with
      | none => (none, st1)
      | some v =>
          tryValues P (backtrack P fuel) v
            (P.order st1.iterations (dgetD P.domains v [])) st1

/-- `TimetableSolver.solve`: reset the assignment and the iteration
counter, then run the backtracking search.  The returned pair is the
search result together with the solver state it leaves behind. -/
def solve (P : SearchParams) (fuel : Nat) : Option Assignment × BTState :=
  backtrack P fuel { assignment := [], iterations := 0 }

/-! ## Reference tables (`data_loader.py`)

The loader's CSV parsing is out of scope (data ingestion is an external
collaborator); the embedding starts from the already-parsed rows.  The
`QualifiedCourses` comma-split is modelled as the row's list of course
ids, and the `PreferredSlots` "Not on <day>" parse as the row's optional
unavailable day (`none` when the cell names no day; the parsed day can be
the empty string, which the domain generator's truthiness test treats as
no restriction). -/

/-- A row of the courses table. -/
structure CourseRow where
  id : String
  credits : Int
  ctype : String
deriving DecidableEq, Repr

/-- A row of the instructors table. -/
structure InstructorRow where
  id : String
  qualified : List String
  unavailable : Option String
deriving DecidableEq, Repr

/-- A row of the rooms table. -/
structure RoomRow where
  id : String
  rtype : String
deriving DecidableEq, Repr

/-- A row of the timeslots table. -/
structure TimeslotRow where
  id : String
  day : String
deriving DecidableEq, Repr

/-- A row of the sections table. -/
structure SectionRow where
  id : String
  courses : List String
deriving DecidableEq, Repr

/-- The loaded reference tables (`DataLoader` after `load_all_data`). -/
structure Loader where
  courses : List CourseRow
  instructors : List InstructorRow
  rooms : List RoomRow
  timeslots : List TimeslotRow
  sections : List SectionRow

/-- `DataLoader.get_course_info`: first row with the given course id. -/
def getCourseInfo (L : Loader) (courseId : String) : Option CourseRow :=
  L.courses.find? (fun r => decide (r.id = courseId))

/-- `DataLoader.get_qualified_instructors`: ids of the instructor rows
whose qualified-course list contains the course, in row order. -/
def getQualifiedInstructors (L : Loader) (courseId : String) : List String :=
  (L.instructors.filter (fun r => decide (courseId ∈ r.qualified))).map
    (fun r => r.id)

/-- `DataLoader.get_instructor_unavailable_day`: the unavailable day of
the first row with the given instructor id (`none` for an unknown id or a
row naming no day). -/
def getInstructorUnavailableDay (L : Loader) (instructorId : String) :
    Option String :=
  match L.instructors.find? (fun r => decide (r.id = instructorId)) with
  | some r => r.unavailable
  | none => none

/-- `DataLoader.get_available_timeslots_for_day`. -/
def getAvailableTimeslotsForDay (L : Loader) (day : String) : List String :=
  (L.timeslots.filter (fun r => decide (r.day = day))).map (fun r => r.id)

/-- `DataLoader.get_rooms_by_type`. -/
def getRoomsByType (L : Loader) (roomType : String) : List String :=
  (L.rooms.filter (fun r => decide (r.rtype = roomType))).map (fun r => r.id)

/-- `DataLoader.get_section_courses`. -/
def getSectionCourses (L : Loader) (sectionId : String) : List String :=
  match L.sections.find? (fun r => decide (r.id = sectionId)) with
  | some r => r.courses
  | none => []

/-! ## Problem builder (`problem_builder.py`) -/

/-- `'Lab' in course_type`: Python substring containment. -/
def strContains (hay needle : String) : Bool :=
  hay.toList.tails.any (fun t => needle.toList.isPrefixOf t)

/-- `ProblemBuilder._calculate_lectures_per_week`. -/
def calculateLecturesPerWeek (credits : Int) : Nat :=
  if credits = 1 then 1
  else if credits = 2 then 1
  else if credits = 3 then 2
  else if credits = 4 then 2
  else if credits = 5 then 3
  else 2

/-- `ProblemBuilder.build_lectures_for_sections`: for each section and
each of its courses found in the course table, create numbered lectures
`1 .. lectures_per_week`; a course absent from the table is skipped. -/
def buildLecturesForSections (L : Loader) (sectionIds : List String) :
    List Lecture :=
  sectionIds.flatMap (fun sid =>
    (getSectionCourses L sid).flatMap (fun cid =>
      match getCourseInfo L cid with
      | none => []
      | some ci =>
          (List.range (calculateLecturesPerWeek ci.credits)).map
            (fun i => { courseId := cid, sectionId := sid,
                        lectureNumber := i + 1 })))

/-- The availability test inside the domain loops:
`if unavailable_day and unavailable_day == day: continue` (Python
truthiness: an empty-string day never blocks). -/
def instructorBlockedOnDay (L : Loader) (instructorId day : String) : Bool :=
  match getInstructorUnavailableDay L instructorId with
  | some d => !(d = "") && (d = day)
  | none => false

/-- The domain `ProblemBuilder.build_domains` computes for one lecture:
`none` when the loop body skips the lecture entirely (course missing from
the table, or no qualified instructor), otherwise the ordered list of
triples from the timeslot × room × instructor loops. -/
def buildDomainFor (L : Loader) (lec : Lecture) : Option (List Value) :=
  match getCourseInfo L lec.courseId with
  | none => none
  | some ci =>
    let roomType := if strContains ci.ctype "Lab" then "Lab" else "Lecture"
    let qualified := getQualifiedInstructors L lec.courseId
    if qualified = [] then none
    else
      let rooms := getRoomsByType L roomType
      let tsIds := L.timeslots.map (fun r => r.id)
      some (tsIds.flatMap (fun tsId =>
        match L.timeslots.find? (fun r => decide (r.id = tsId)) with
        | none => []
        | some row =>
            rooms.flatMap (fun roomId =>
              qualified.filterMap (fun instructorId =>
                if instructorBlockedOnDay L instructorId row.day then none
                else some (tsId, roomId, instructorId)))))

/-- `ProblemBuilder.build_domains`: fold over the lectures, storing each
computed domain under the lecture's variable name; skipped lectures store
nothing. -/
def buildDomains (L : Loader) (lectures : List Lecture) :
    List (String × List Value) :=
  lectures.foldl
    (fun doms lec =>
      match buildDomainFor L lec with
      | none => doms
      | some d => dinsert doms lec.varName d) []

/-! ## Quality scorer (`soft_constraints.py`)

Float arithmetic is modelled exactly: sums, means and variances over `ℚ`,
and the standard deviation's square root over `ℝ`.  The two bonus
functions involving `Real.sqrt` are the only noncomputable definitions;
everything feeding them (the grouping dictionaries and the variance) stays
executable. -/

/-- `next((l for l in lectures if l.get_variable_name() == var_name), None)`:
the first lecture with the given variable name. -/
def lectureOfVar (lectures : List Lecture) (v : String) : Option Lecture :=
  lectures.find? (fun l => decide (l.varName = v))

/-- The day of a timeslot id: first matching row of the timeslots table
(`ts_info.iloc[0]['Day']`), `none` when the lookup comes back empty. -/
def tsDayOf (L : Loader) (tsId : String) : Option String :=
  (L.timeslots.find? (fun r => decide (r.id = tsId))).map (fun r => r.day)

/-- `SoftConstraints._group_by_section_and_day`: timeslot ids grouped by
`(section_id, day)`; items with an unknown variable or an unresolvable
timeslot are skipped. -/
def groupBySectionAndDay (L : Loader) (assignment : Assignment)
    (lectures : List Lecture) : List ((String × String) × List String) :=
  assignment.foldl
    (fun m it =>
      match lectureOfVar lectures it.1 with
      | none => m
      | some lec =>
        match tsDayOf L it.2.1 with
        | none => m
        | some day => dappendGroup m (lec.sectionId, day) it.2.1) []

/-- `SoftConstraints._group_by_instructor_and_day`. -/
def groupByInstructorAndDay (L : Loader) (assignment : Assignment) :
    List ((String × String) × List String) :=
  assignment.foldl
    (fun m it =>
      match tsDayOf L it.2.1 with
      | none => m
      | some day => dappendGroup m (it.2.2.2, day) it.2.1) []

/-- Lexicographic comparison of character sequences by code point — the
order Python string comparison uses (a strict prefix compares smaller). -/
def charListLt : List Char → List Char → Bool
  | _, [] => false
  | [], _ :: _ => true
  | c :: cs, d :: ds =>
    if c.toNat < d.toNat then true
    else if d.toNat < c.toNat then false
    else charListLt cs ds

/-- Python `s1 <= s2` on strings. -/
def strLe (a b : String) : Bool := !(charListLt b.toList a.toList)

/-- One insertion step of a stable insertion sort. -/
def insertSorted (x : String) : List String → List String
  | [] => [x]
  | y :: rest =>
      if strLe x y then x :: y :: rest else y :: insertSorted x rest

/-- Python `sorted` on a list of strings: stable sort in lexicographic
code-point order, rendered as a structural insertion sort. -/
def sortedStrings (l : List String) : List String :=
  l.foldr insertSorted []

/-- The consecutive pairs `(l[i], l[i+1])` visited by
`for i in range(len(l) - 1)`. -/
def adjacentPairs {α : Type} : List α → List (α × α)
  | a :: b :: rest => (a, b) :: adjacentPairs (b :: rest)
  | _ => []

/-- The gap penalty contributed by one `(section, day)` group in
`SoftConstraints._calculate_gap_penalty`: sort the group's timeslot ids
(as strings), and for each consecutive pair add
`(index distance in the day's slot list - 1) * weight` when positive.
The Python float accumulates only integer-valued terms here, so the sum
is modelled exactly over `ℤ`. -/
def gapPenaltyOfGroup (L : Loader) (day : String) (slots : List String) :
    ℤ :=
  let sorted := sortedStrings slots
  if 1 < sorted.length then
    let daySlots := getAvailableTimeslotsForDay L day
    ((adjacentPairs sorted).map (fun p =>
      let currentIdx : Int := daySlots.indexOf p.1
      let nextIdx : Int := daySlots.indexOf p.2
      let gapSize := nextIdx - currentIdx - 1
      if 0 < gapSize then gapSize * 10 else 0)).sum
  else 0

/-- `SoftConstraints._calculate_gap_penalty` (weight `no_gaps = 10`). -/
def calculateGapPenalty (L : Loader) (assignment : Assignment)
    (lectures : List Lecture) : ℤ :=
  ((groupBySectionAndDay L assignment lectures).map
    (fun g => gapPenaltyOfGroup L g.1.2 g.2)).sum

/-- `if day not in day_counts: day_counts[day] = 0` then
`day_counts[day] += 1`. -/
def bumpCount (m : List (String × Nat)) (k : String) : List (String × Nat) :=
  match dget m k with
  | some n => dinsert m k (n + 1)
  | none => m ++ [(k, 1)]

/-- `if section_id not in section_schedules: section_schedules[section_id] = {}`. -/
def ensureKey (m : List (String × List (String × Nat))) (k : String) :
    List (String × List (String × Nat)) :=
  if dget m k = none then m ++ [(k, [])] else m

/-- The nested grouping dict of `SoftConstraints._calculate_balance_bonus`:
section id to per-day session counts.  The section's key is created before
the timeslot lookup, so a section all of whose timeslots fail to resolve
keeps an empty day dict. -/
def balanceGroups (L : Loader) (assignment : Assignment)
    (lectures : List Lecture) : List (String × List (String × Nat)) :=
  assignment.foldl
    (fun m it =>
      match lectureOfVar lectures it.1 with
      | none => m
      | some lec =>
        match tsDayOf L it.2.1 with
        | none => ensureKey m lec.sectionId
        | some day =>
            dinsert (ensureKey m lec.sectionId) lec.sectionId
              (bumpCount (dgetD (ensureKey m lec.sectionId) lec.sectionId [])
                day)) []

/-- `mean = sum(values) / len(values)`. -/
def listMean (values : List ℚ) : ℚ := values.sum / values.length

/-- `variance = sum((x - mean) ** 2 for x in values) / len(values)`:
the population variance. -/
def listVariance (values : List ℚ) : ℚ :=
  ((values.map (fun x => (x - listMean values) ^ 2)).sum) / values.length

/-- One section's term in the balance bonus:
`max(0, 5 - std_dev) * weight` with `balanced_days = 5`, where `std_dev`
is the square root of the population variance of the day-count dict's
values. -/
noncomputable def balanceScoreOf (dayCounts : List (String × Nat)) : ℝ :=
  let values : List ℚ := dayCounts.map (fun p => (p.2 : ℚ))
  max 0 (5 - Real.sqrt ((listVariance values : ℚ) : ℝ)) * 5

/-- `SoftConstraints._calculate_balance_bonus`: sum the per-section terms,
skipping sections whose day dict is empty (`if not day_counts: continue`). -/
noncomputable def calculateBalanceBonus (L : Loader) (assignment : Assignment)
    (lectures : List Lecture) : ℝ :=
  (balanceGroups L assignment lectures).foldl
    (fun acc g => if g.2 = [] then acc else acc + balanceScoreOf g.2) 0

/-- Python `int(s)` on the digit-only suffixes that room ids carry
(`none` triggers the source's `except` branch); signs, whitespace and
other accepted `int` syntaxes do not occur in room ids and are not
modelled. -/
def parseDigits (cs : List Char) : Option Nat :=
  if cs ≠ [] ∧ cs.all Char.isDigit then
    some (cs.foldl (fun n c => n * 10 + (c.toNat - 48)) 0)
  else none

/-- `SoftConstraints._calculate_room_distance`: 0 for identical ids,
`abs difference of numeric suffixes // 5` for same-prefix ids (1 when a
suffix fails to parse), 3 for different prefixes.  The final catch-all
branch is unreachable from the caller, which guards both rooms non-empty
(Python would raise an IndexError on an empty id). -/
def roomDistance (room1 room2 : String) : Int :=
  if room1 = room2 then 0
  else
    match room1.toList, room2.toList with
    | c1 :: t1, c2 :: t2 =>
      if c1 = c2 then
        match parseDigits t1, parseDigits t2 with
        | some a, some b => (((a : Int) - b).natAbs / 5 : Nat)
        | _, _ => 1
      else 3
    | _, _ => 3

/-- The hard-coded timeslot universe `[f'TS{i}' for i in range(20)]` of
`SoftConstraints._check_consecutive_room_distance`. -/
def allSlots : List String := (List.range 20).map (fun i => "TS" ++ toString i)

/-- The room-finding scan in `_check_consecutive_room_distance`: iterate
over the whole assignment and remember the room of every lecture sitting
at the timeslot — the last match wins. -/
def lastRoomAt (assignment : Assignment) (tsId : String) : Option String :=
  ((assignment.filter (fun it => decide (it.2.1 = tsId))).getLast?).map
    (fun it => it.2.2.1)

/-- The penalty of one consecutive pair of sorted timeslots: if their
positions in `allSlots` are adjacent, find a room at each timeslot by
scanning the whole assignment, and when both are non-empty and their
distance exceeds 2, add `distance * weight` (`consecutive_rooms = 8`);
all terms are integer-valued, so the float sum is modelled over `ℤ`. -/
def pairPenalty (assignment : Assignment) (cur nxt : String) : ℤ :=
  if allSlots.indexOf nxt = allSlots.indexOf cur + 1 then
    match lastRoomAt assignment cur, lastRoomAt assignment nxt with
    | some currentRoom, some nextRoom =>
      if currentRoom ≠ "" ∧ nextRoom ≠ "" then
        let d := roomDistance currentRoom nextRoom
        if 2 < d then d * 8 else 0
      else 0
    | _, _ => 0
  else 0

/-- `SoftConstraints._check_consecutive_room_distance`. -/
def checkConsecutiveRoomDistance (timeslots : List String)
    (assignment : Assignment) : ℤ :=
  if timeslots.length < 2 then 0
  else
    ((adjacentPairs (sortedStrings timeslots)).map
      (fun p => pairPenalty assignment p.1 p.2)).sum

/-- `SoftConstraints._calculate_room_distance_penalty`: the section-view
and instructor-view sums, added without deduplication. -/
def calculateRoomDistancePenalty (L : Loader) (assignment : Assignment)
    (lectures : List Lecture) : ℤ :=
  ((groupBySectionAndDay L assignment lectures).map
    (fun g => checkConsecutiveRoomDistance g.2 assignment)).sum +
  ((groupByInstructorAndDay L assignment).map
    (fun g => checkConsecutiveRoomDistance g.2 assignment)).sum

/-! ## Characterising the grouping dictionaries -/

/-- The variable names of the items a grouping collects under key `k`. -/
def keyMembers {κ : Type} [DecidableEq κ] (f : String × Value → Option κ)
    (items : Assignment) (k : κ) : List String :=
  (items.filter (fun it => decide (f it = some k))).map (fun it => it.1)

theorem dget_dappendGroup_self {κ α : Type} [DecidableEq κ]
    (m : List (κ × List α)) (k : κ) (x : α) :
    dget (dappendGroup m k x) k = some (dgetD m k [] ++ [x]) := by
  unfold dappendGroup
  cases h : dget m k with
  | some xs => simp [dgetD, h, dget_dinsert_self]
  | none =>
    rw [dget_append, h]
    unfold dgetD
    rw [h]
    simp [dget, List.find?]

theorem dget_dappendGroup_ne {κ α : Type} [DecidableEq κ]
    (m : List (κ × List α)) (k k' : κ) (x : α) (h : k' ≠ k) :
    dget (dappendGroup m k x) k' = dget m k' := by
  unfold dappendGroup
  cases hg : dget m k with
  | some xs => exact dget_dinsert_ne m k k' (xs ++ [x]) h
  | none =>
    rw [dget_append]
    have hone : dget [(k, [x])] k' = none := by
      simp [dget, List.find?, decide_eq_false (Ne.symm h)]
    rw [hone]
    cases dget m k' <;> rfl

theorem keyMembers_nil {κ : Type} [DecidableEq κ]
    (f : String × Value → Option κ) (k : κ) : keyMembers f [] k = [] := rfl

theorem keyMembers_cons {κ : Type} [DecidableEq κ]
    (f : String × Value → Option κ) (it : String × Value)
    (items : Assignment) (k : κ) :
    keyMembers f (it :: items) k =
      if f it = some k then it.1 :: keyMembers f items k
      else keyMembers f items k := by
  by_cases h : f it = some k <;> simp [keyMembers, List.filter, h]

theorem dget_groupPairs_foldl {κ : Type} [DecidableEq κ]
    (f : String × Value → Option κ) :
    ∀ (items : Assignment) (m : List (κ × List String)) (k : κ),
      dget (items.foldl
        (fun m it =>
          match f it with
          | some k => dappendGroup m k it.1
          | none => m) m) k =
      match dget m k with
      | some g => some (g ++ keyMembers f items k)
      | none =>
          if keyMembers f items k = [] then none
          else some (keyMembers f items k) := by
  intro items
  induction items with
  | nil =>
    intro m k
    simp only [List.foldl_nil, keyMembers_nil]
    cases dget m k <;> simp
  | cons it rest ih =>
    intro m k
    rw [List.foldl_cons]
    cases hf : f it with
    | none =>
      rw [ih m k, keyMembers_cons]
      simp [hf]
    | some k' =>
      by_cases hkk : k' = k
      · subst hkk
        rw [ih (dappendGroup m k' it.1) k', keyMembers_cons,
          dget_dappendGroup_self]
        simp only [hf, if_pos rfl]
        cases hg : dget m k' with
        | some g => simp [dgetD, hg, List.append_assoc]
        | none => simp [dgetD, hg]
      · rw [ih (dappendGroup m k' it.1) k,
          dget_dappendGroup_ne m k' k it.1 (Ne.symm hkk), keyMembers_cons]
        have : ¬ (f it = some k) := by
          rw [hf]
          exact fun hh => hkk (Option.some.inj hh)
        simp [this]

theorem dget_groupPairs {κ : Type} [DecidableEq κ]
    (f : String × Value → Option κ) (items : Assignment) (k : κ) :
    dget (groupPairs f items) k =
      if keyMembers f items k = [] then none
      else some (keyMembers f items k) := by
  unfold groupPairs
  rw [dget_groupPairs_foldl f items [] k]
  rfl

/-- The keys of an association list. -/
def dkeys {κ α : Type} (m : List (κ × α)) : List κ := m.map (fun p => p.1)

theorem dkeys_dinsert_of_mem {κ α : Type} [DecidableEq κ]
    (m : List (κ × α)) (k : κ) (v : α)
    (h : m.any (fun p => decide (p.1 = k)) = true) :
    dkeys (dinsert m k v) = dkeys m := by
  unfold dinsert
  rw [if_pos h]
  unfold dkeys
  rw [List.map_map]
  apply List.map_congr_left
  intro p _
  by_cases hp : p.1 = k <;> simp [hp]

theorem dkeys_nodup_dappendGroup {κ α : Type} [DecidableEq κ]
    (m : List (κ × List α)) (k : κ) (x : α)
    (h : (dkeys m).Nodup) : (dkeys (dappendGroup m k x)).Nodup := by
  unfold dappendGroup
  cases hg : dget m k with
  | some xs =>
    have hany : m.any (fun p => decide (p.1 = k)) = true := by
      unfold dget at hg
      cases hf : m.find? (fun p => decide (p.1 = k)) with
      | none => rw [hf] at hg; cases hg
      | some p =>
        have hp := List.find?_some hf
        have hmem := List.mem_of_find?_eq_some hf
        exact List.any_eq_true.mpr ⟨p, hmem, hp⟩
    rw [dkeys_dinsert_of_mem m k (xs ++ [x]) hany]
    exact h
  | none =>
    have hnotin : k ∉ dkeys m := by
      intro hmem
      rcases List.mem_map.mp hmem with ⟨p, hp, hpk⟩
      exact ((dget_eq_none_iff m k).mp hg p hp) hpk
    unfold dkeys
    rw [List.map_append]
    refine List.Nodup.append h (by simp) ?_
    intro a ha hb
    simp only [List.map_cons, List.map_nil, List.mem_singleton] at hb
    subst hb
    exact hnotin ha

theorem dkeys_nodup_groupPairs {κ : Type} [DecidableEq κ]
    (f : String × Value → Option κ) (items : Assignment) :
    (dkeys (groupPairs f items)).Nodup := by
  unfold groupPairs
  suffices hgen : ∀ (m : List (κ × List String)), (dkeys m).Nodup →
      (dkeys (items.foldl
        (fun m it =>
          match f it with
          | some k => dappendGroup m k it.1
          | none => m) m)).Nodup by
    exact hgen [] (by simp [dkeys])
  induction items with
  | nil => intro m hm; simpa using hm
  | cons it rest ih =>
    intro m hm
    rw [List.foldl_cons]
    cases hf : f it with
    | none => exact ih m hm
    | some k => exact ih (dappendGroup m k it.1) (dkeys_nodup_dappendGroup m k it.1 hm)

theorem dget_of_mem_of_nodup {κ α : Type} [DecidableEq κ]
    (m : List (κ × α)) (p : κ × α) (hp : p ∈ m) (h : (dkeys m).Nodup) :
    dget m p.1 = some p.2 := by
  induction m with
  | nil => cases hp
  | cons q rest ih =>
    rcases List.mem_cons.mp hp with rfl | hmem
    · simp [dget_cons]
    · have hq : q.1 ≠ p.1 := by
        intro hh
        have : p.1 ∈ dkeys rest := List.mem_map.mpr ⟨p, hmem, rfl⟩
        rw [← hh] at this
        exact (List.nodup_cons.mp h).1 this
      have hrest : (dkeys rest).Nodup := (List.nodup_cons.mp h).2
      rw [dget_cons, if_neg hq]
      exact ih hmem hrest

theorem mem_of_dget_eq_some {κ α : Type} [DecidableEq κ]
    (m : List (κ × α)) (k : κ) (v : α) (h : dget m k = some v) :
    (k, v) ∈ m := by
  unfold dget at h
  cases hf : m.find? (fun p => decide (p.1 = k)) with
  | none => rw [hf] at h; cases h
  | some p =>
    rw [hf] at h
    have hp : p.1 = k := by simpa using List.find?_some hf
    have hmem := List.mem_of_find?_eq_some hf
    have hv : p.2 = v := by simpa using h
    have : p = (k, v) := Prod.ext hp hv
    rw [← this]
    exact hmem

/-- A grouping check `all (len ≤ 1)` says exactly that no key collects two
items. -/
theorem groupPairs_all_small_iff {κ : Type} [DecidableEq κ]
    (f : String × Value → Option κ) (items : Assignment) :
    ((groupPairs f items).all (fun g => decide (g.2.length ≤ 1)) = true) ↔
      ∀ k, (keyMembers f items k).length ≤ 1 := by
  constructor
  · intro h k
    by_cases hk : keyMembers f items k = []
    · simp [hk]
    · have hget : dget (groupPairs f items) k = some (keyMembers f items k) := by
        rw [dget_groupPairs, if_neg hk]
      have hmem := mem_of_dget_eq_some _ _ _ hget
      have := List.all_eq_true.mp h _ hmem
      simpa using this
  · intro h
    apply List.all_eq_true.mpr
    intro g hg
    have hget : dget (groupPairs f items) g.1 = some g.2 :=
      dget_of_mem_of_nodup _ g hg (dkeys_nodup_groupPairs f items)
    rw [dget_groupPairs] at hget
    by_cases hk : keyMembers f items g.1 = []
    · rw [if_pos hk] at hget; cases hget
    · rw [if_neg hk] at hget
      have : g.2 = keyMembers f items g.1 := (Option.some.inj hget).symm
      rw [this]
      simpa using h g.1

/-- A grouping's conflict list is empty when no key collects two items. -/
theorem conflictsOfGrouping_eq_nil (kind : String)
    (f : String × Value → Option (String × String)) (items : Assignment)
    (h : ∀ k, (keyMembers f items k).length ≤ 1) :
    conflictsOfGrouping kind (groupPairs f items) = [] := by
  unfold conflictsOfGrouping
  rw [List.map_eq_nil_iff, List.filter_eq_nil_iff]
  intro g hg
  have hget : dget (groupPairs f items) g.1 = some g.2 :=
    dget_of_mem_of_nodup _ g hg (dkeys_nodup_groupPairs f items)
  rw [dget_groupPairs] at hget
  by_cases hk : keyMembers f items g.1 = []
  · rw [if_pos hk] at hget; cases hget
  · rw [if_neg hk] at hget
    have hgv : g.2 = keyMembers f items g.1 := (Option.some.inj hget).symm
    have := h g.1
    rw [← hgv] at this
    simpa using this

/-! ## From `check_all_constraints` to `get_conflicts` -/

theorem sectionKeyTruthy_eq_some (lectures : List Lecture)
    (it : String × Value) (s ts : String) (hs : s ≠ "") :
    sectionKeyTruthy lectures it = some (s, ts) ↔
      sectionKey lectures it = some (s, ts) := by
  unfold sectionKeyTruthy sectionKey
  cases hget : dget (varToSection lectures) it.1 with
  | none => simp
  | some s0 =>
    by_cases h0 : s0 = ""
    · subst h0
      simp only [if_pos rfl]
      constructor
      · intro h; cases h
      · intro h
        exact absurd (Prod.mk.injEq .. ▸ (Option.some.inj h)).1.symm
          (by simpa using hs)
    · simp [h0]

theorem sectionKeyTruthy_ne_empty (lectures : List Lecture)
    (it : String × Value) (ts : String) :
    sectionKeyTruthy lectures it ≠ some ("", ts) := by
  unfold sectionKeyTruthy
  cases dget (varToSection lectures) it.1 with
  | none => simp
  | some s0 =>
    by_cases h0 : s0 = ""
    · simp [h0]
    · simp only [if_neg h0]
      intro h
      exact h0 (Prod.mk.injEq .. ▸ (Option.some.inj h)).1

theorem keyMembers_sectionKeyTruthy (lectures : List Lecture)
    (items : Assignment) (s ts : String) :
    keyMembers (sectionKeyTruthy lectures) items (s, ts) =
      if s = "" then []
      else keyMembers (sectionKey lectures) items (s, ts) := by
  by_cases hs : s = ""
  · subst hs
    rw [if_pos rfl]
    unfold keyMembers
    rw [List.map_eq_nil_iff, List.filter_eq_nil_iff]
    intro it _
    simpa using sectionKeyTruthy_ne_empty lectures it ts
  · rw [if_neg hs]
    unfold keyMembers
    congr 1
    apply List.filter_congr
    intro it _
    simp only [decide_eq_decide]
    exact sectionKeyTruthy_eq_some lectures it s ts hs

/-- If `check_all_constraints` accepts an assignment then `get_conflicts`
reports nothing on it. -/
theorem getConflicts_eq_nil_of_checkAll (assignment : Assignment)
    (lectures : List Lecture)
    (h : checkAllConstraints assignment lectures = true) :
    getConflicts assignment lectures = [] := by
  unfold checkAllConstraints at h
  rw [Bool.and_eq_true, Bool.and_eq_true] at h
  obtain ⟨⟨h1, h2⟩, h3⟩ := h
  unfold noInstructorConflict at h1
  unfold noRoomConflict at h2
  unfold noStudentConflict at h3
  rw [groupPairs_all_small_iff] at h1 h2 h3
  unfold getConflicts
  rw [conflictsOfGrouping_eq_nil _ _ _ h1, conflictsOfGrouping_eq_nil _ _ _ h2,
    conflictsOfGrouping_eq_nil]
  · rfl
  · intro k
    rcases k with ⟨s, ts⟩
    rw [keyMembers_sectionKeyTruthy]
    by_cases hs : s = ""
    · simp [hs]
    · rw [if_neg hs]
      exact h3 (s, ts)

/-! ## Search-engine lemmas -/

/-- A one-item grouping. -/
theorem groupPairs_singleton {κ : Type} [DecidableEq κ]
    (f : String × Value → Option κ) (it : String × Value) :
    groupPairs f [it] =
      match f it with
      | some k => [(k, [it.1])]
      | none => [] := by
  unfold groupPairs
  rw [List.foldl_cons, List.foldl_nil]
  cases f it with
  | none => rfl
  | some k => rfl

theorem groupPairs_singleton_all_small {κ : Type} [DecidableEq κ]
    (f : String × Value → Option κ) (it : String × Value) :
    (groupPairs f [it]).all (fun g => decide (g.2.length ≤ 1)) = true := by
  rw [groupPairs_singleton]
  cases f it <;> simp

/-- Any single value is consistent with the empty assignment: every
grouping of the one-entry dict has a single-element group. -/
theorem isConsistent_empty (v : String) (value : Value)
    (lectures : List Lecture) : isConsistent v value [] lectures = true := by
  have hins : dinsert ([] : Assignment) v value = [(v, value)] := rfl
  unfold isConsistent
  rw [hins]
  unfold checkAllConstraints noInstructorConflict noRoomConflict
    noStudentConflict
  rw [groupPairs_singleton_all_small, groupPairs_singleton_all_small,
    groupPairs_singleton_all_small]
  rfl

/-- With an empty assignment the MRV count is just the domain size. -/
theorem remainingValues_empty (P : SearchParams) (v : String) :
    remainingValues P [] v = (dgetD P.domains v []).length := by
  unfold remainingValues
  rw [List.countP_eq_length]
  intro value _
  simpa using isConsistent_empty v value P.lectures

/-- With an empty assignment every lecture is unassigned. -/
theorem unassignedVars_empty (P : SearchParams) :
    unassignedVars P [] = P.lectures.map Lecture.varName := by
  unfold unassignedVars
  apply List.filter_eq_self.mpr
  intro v _
  simp [dget_nil]

/-- Any property of all candidates (and of the accumulator's candidate)
holds of the variable the MRV fold selects. -/
theorem foldl_selectStep_prop (P : SearchParams) (a : Assignment)
    (Pred : String → Prop) :
    ∀ (l : List String) (acc : Option (String × Nat)),
      (∀ q, acc = some q → Pred q.1) → (∀ x ∈ l, Pred x) →
      ∀ p, l.foldl (selectStep P a) acc = some p → Pred p.1 := by
  intro l
  induction l with
  | nil =>
    intro acc hacc _ p hp
    exact hacc p hp
  | cons x rest ih =>
    intro acc hacc hl p hp
    rw [List.foldl_cons] at hp
    refine ih (selectStep P a acc x) ?_ (fun y hy => hl y (List.mem_cons_of_mem x hy)) p hp
    intro q hq
    unfold selectStep at hq
    cases acc with
    | none =>
      simp only at hq
      rw [← (Option.some.inj hq)]
      exact hl x (List.mem_cons_self x rest)
    | some b =>
      simp only at hq
      by_cases hlt : remainingValues P a x < b.2
      · rw [if_pos hlt] at hq
        rw [← (Option.some.inj hq)]
        exact hl x (List.mem_cons_self x rest)
      · rw [if_neg hlt] at hq
        rw [← (Option.some.inj hq)]
        exact hacc b rfl

/-- The MRV fold computes a candidate attaining the minimum count among
the candidates scanned (the accumulator acting as the running minimum). -/
theorem foldl_selectStep_min (P : SearchParams) (a : Assignment) :
    ∀ (l : List String) (acc : Option (String × Nat)),
      (∀ q, acc = some q → q.2 = remainingValues P a q.1) →
      ∀ p, l.foldl (selectStep P a) acc = some p →
        p.2 = remainingValues P a p.1 ∧
        (∀ u ∈ l, p.2 ≤ remainingValues P a u) ∧
        (∀ q, acc = some q → p.2 ≤ q.2) := by
  intro l
  induction l with
  | nil =>
    intro acc hacc p hp
    rw [List.foldl_nil] at hp
    refine ⟨hacc p hp, by simp, fun q hq => ?_⟩
    rw [hp] at hq
    rw [Option.some.inj hq]
  | cons x rest ih =>
    intro acc hacc p hp
    rw [List.foldl_cons] at hp
    cases acc with
    | none =>
      have hstep : selectStep P a none x = some (x, remainingValues P a x) := rfl
      rw [hstep] at hp
      obtain ⟨hval, hrest, hacc'⟩ := ih (some (x, remainingValues P a x))
        (by intro q hq; rw [← Option.some.inj hq]) p hp
      refine ⟨hval, ?_, by intro q hq; cases hq⟩
      intro u hu
      rcases List.mem_cons.mp hu with rfl | hmem
      · exact hacc' (u, remainingValues P a u) rfl
      · exact hrest u hmem
    | some b =>
      have hb : b.2 = remainingValues P a b.1 := hacc b rfl
      by_cases hlt : remainingValues P a x < b.2
      · have hstep : selectStep P a (some b) x = some (x, remainingValues P a x) := by
          unfold selectStep
          simp only
          rw [if_pos hlt]
        rw [hstep] at hp
        obtain ⟨hval, hrest, hacc'⟩ := ih (some (x, remainingValues P a x))
          (by intro q hq; rw [← Option.some.inj hq]) p hp
        have hx : p.2 ≤ remainingValues P a x :=
          hacc' (x, remainingValues P a x) rfl
        refine ⟨hval, ?_, ?_⟩
        · intro u hu
          rcases List.mem_cons.mp hu with rfl | hmem
          · exact hx
          · exact hrest u hmem
        · intro q hq
          rw [← Option.some.inj hq]
          exact le_trans hx (le_of_lt hlt)
      · have hstep : selectStep P a (some b) x = some b := by
          unfold selectStep
          simp only
          rw [if_neg hlt]
        rw [hstep] at hp
        obtain ⟨hval, hrest, hacc'⟩ := ih (some b) hacc p hp
        have hpb : p.2 ≤ b.2 := hacc' b rfl
        refine ⟨hval, ?_, ?_⟩
        · intro u hu
          rcases List.mem_cons.mp hu with rfl | hmem
          · exact le_trans hpb (by rw [hb] at hlt ⊢; exact le_of_not_lt hlt)
          · exact hrest u hmem
        · intro q hq
          rw [← Option.some.inj hq]
          exact hpb

/-- The MRV fold yields a candidate whenever the list is nonempty. -/
theorem foldl_selectStep_isSome (P : SearchParams) (a : Assignment) :
    ∀ (l : List String) (acc : Option (String × Nat)),
      (l ≠ [] ∨ acc.isSome) →
      (l.foldl (selectStep P a) acc).isSome := by
  intro l
  induction l with
  | nil =>
    intro acc h
    rcases h with h | h
    · exact absurd rfl h
    · simpa using h
  | cons x rest ih =>
    intro acc _
    rw [List.foldl_cons]
    refine ih (selectStep P a acc x) (Or.inr ?_)
    unfold selectStep
    cases acc with
    | none => simp
    | some b =>
      simp only
      by_cases hlt : remainingValues P a x < b.2
      · rw [if_pos hlt]; rfl
      · rw [if_neg hlt]; rfl

/-- The selected variable is unassigned in the assignment it was selected
against. -/
theorem selectUnassignedVariable_fresh (P : SearchParams) (a : Assignment)
    (v : String) (h : selectUnassignedVariable P a = some v) :
    dget a v = none := by
  unfold selectUnassignedVariable at h
  cases hf : (unassignedVars P a).foldl (selectStep P a) none with
  | none => rw [hf] at h; cases h
  | some p =>
    rw [hf] at h
    have hp : p.1 = v := by simpa using h
    rw [← hp]
    refine foldl_selectStep_prop P a (fun x => dget a x = none)
      (unassignedVars P a) none (by intro q hq; cases hq) ?_ p hf
    intro x hx
    have := (List.mem_filter.mp hx).2
    simpa using this

/-- The selected variable minimises the MRV count over the unassigned
variables. -/
theorem selectUnassignedVariable_min (P : SearchParams) (a : Assignment)
    (v : String) (h : selectUnassignedVariable P a = some v) :
    ∀ u ∈ unassignedVars P a,
      remainingValues P a v ≤ remainingValues P a u := by
  unfold selectUnassignedVariable at h
  cases hf : (unassignedVars P a).foldl (selectStep P a) none with
  | none => rw [hf] at h; cases h
  | some p =>
    rw [hf] at h
    have hp : p.1 = v := by simpa using h
    obtain ⟨hval, hmin, _⟩ := foldl_selectStep_min P a (unassignedVars P a)
      none (by intro q hq; cases hq) p hf
    intro u hu
    have := hmin u hu
    rw [hval, hp] at this
    exact this

/-- Rollback through the value loop: if every recursive call restores the
assignment on failure, a failed value loop restores it too (each tried
value is committed with `dinsert` and undone with `del`). -/
theorem tryValues_rollback (P : SearchParams)
    (recurse : BTState → Option Assignment × BTState) (v : String)
    (hrec : ∀ st, (recurse st).1 = none →
      (recurse st).2.assignment = st.assignment) :
    ∀ (values : List Value) (st : BTState), dget st.assignment v = none →
      (tryValues P recurse v values st).1 = none →
      (tryValues P recurse v values st).2.assignment = st.assignment := by
  intro values
  induction values with
  | nil => intro st _ _; rfl
  | cons value rest ih =>
    intro st hfresh hnone
    simp only [tryValues] at hnone ⊢
    by_cases hcons : isConsistent v value st.assignment P.lectures = true
    · rw [if_pos hcons] at hnone ⊢
      rcases h2 : recurse { st with assignment := dinsert st.assignment v value }
        with ⟨res, st2⟩
      rw [h2] at hnone
      cases res with
      | some a => simp at hnone
      | none =>
        have hst2 : st2.assignment = dinsert st.assignment v value := by
          have h3 := hrec { st with assignment := dinsert st.assignment v value }
            (by rw [h2])
          rw [h2] at h3
          exact h3
        have hst3 : (derase st2.assignment v) = st.assignment := by
          rw [hst2]
          exact derase_dinsert_of_dget_none st.assignment v value hfresh
        have hfresh3 : dget (derase st2.assignment v) v = none := by
          rw [hst3]; exact hfresh
        have hres := ih { st2 with assignment := derase st2.assignment v }
          hfresh3 hnone
        show (tryValues P recurse v rest
          { st2 with assignment := derase st2.assignment v }).2.assignment =
          st.assignment
        rw [hres]
        exact hst3
    · rw [if_neg hcons] at hnone ⊢
      exact ih st hfresh hnone

/-- Rollback through the whole search: a failed `_backtrack` call leaves
`self.assignment` exactly as it found it, whether it timed out, found no
variable, or exhausted every value. -/
theorem backtrack_rollback (P : SearchParams) :
    ∀ (fuel : Nat) (st : BTState), (backtrack P fuel st).1 = none →
      (backtrack P fuel st).2.assignment = st.assignment := by
  intro fuel
  induction fuel with
  | zero => intro st _; rfl
  | succ fuel ih =>
    intro st hnone
    simp only [backtrack] at hnone ⊢
    by_cases hto : P.timeOut (st.iterations + 1) = true
    · rw [if_pos hto] at hnone ⊢
    · rw [if_neg hto] at hnone ⊢
      by_cases hlen : st.assignment.length = P.lectures.length
      · rw [if_pos hlen] at hnone
        simp at hnone
      · rw [if_neg hlen] at hnone ⊢
        cases hsel : selectUnassignedVariable P st.assignment with
        | none => rfl
        | some v =>
          rw [hsel] at hnone
          have hfresh : dget st.assignment v = none :=
            selectUnassignedVariable_fresh P st.assignment v hsel
          exact tryValues_rollback P (backtrack P fuel) v ih _
            { st with iterations := st.iterations + 1 } hfresh hnone

/-- Soundness through the value loop: starting from a constraint-satisfying
assignment, any success the loop returns satisfies the constraints and is
complete. -/
theorem tryValues_sound (P : SearchParams)
    (recurse : BTState → Option Assignment × BTState) (v : String)
    (hrecR : ∀ st, (recurse st).1 = none →
      (recurse st).2.assignment = st.assignment)
    (hrecS : ∀ st, checkAllConstraints st.assignment P.lectures = true →
      ∀ a, (recurse st).1 = some a →
        checkAllConstraints a P.lectures = true ∧
        a.length = P.lectures.length) :
    ∀ (values : List Value) (st : BTState), dget st.assignment v = none →
      checkAllConstraints st.assignment P.lectures = true →
      ∀ a, (tryValues P recurse v values st).1 = some a →
        checkAllConstraints a P.lectures = true ∧
        a.length = P.lectures.length := by
  intro values
  induction values with
  | nil => intro st _ _ a ha; cases ha
  | cons value rest ih =>
    intro st hfresh hinv a ha
    simp only [tryValues] at ha
    by_cases hcons : isConsistent v value st.assignment P.lectures = true
    · rw [if_pos hcons] at ha
      rcases h2 : recurse { st with assignment := dinsert st.assignment v value }
        with ⟨res, st2⟩
      rw [h2] at ha
      cases res with
      | some a2 =>
        have ha2 : some a2 = some a := ha
        have hkeep := hrecS { st with assignment := dinsert st.assignment v value }
          hcons a2 (by rw [h2])
        rw [← Option.some.inj ha2]
        exact hkeep
      | none =>
        have hst2 : st2.assignment = dinsert st.assignment v value := by
          have h3 := hrecR { st with assignment := dinsert st.assignment v value }
            (by rw [h2])
          rw [h2] at h3
          exact h3
        have hst3 : (derase st2.assignment v) = st.assignment := by
          rw [hst2]
          exact derase_dinsert_of_dget_none st.assignment v value hfresh
        refine ih { st2 with assignment := derase st2.assignment v } ?_ ?_ a ha
        · show dget (derase st2.assignment v) v = none
          rw [hst3]
          exact hfresh
        · show checkAllConstraints (derase st2.assignment v) P.lectures = true
          rw [hst3]
          exact hinv
    · rw [if_neg hcons] at ha
      exact ih st hfresh hinv a ha

/-- Soundness of `_backtrack`: starting from a constraint-satisfying
assignment, any returned solution satisfies all hard constraints and has
one entry per lecture. -/
theorem backtrack_sound (P : SearchParams) :
    ∀ (fuel : Nat) (st : BTState),
      checkAllConstraints st.assignment P.lectures = true →
      ∀ a, (backtrack P fuel st).1 = some a →
        checkAllConstraints a P.lectures = true ∧
        a.length = P.lectures.length := by
  intro fuel
  induction fuel with
  | zero => intro st _ a ha; cases ha
  | succ fuel ih =>
    intro st hinv a ha
    simp only [backtrack] at ha
    by_cases hto : P.timeOut (st.iterations + 1) = true
    · rw [if_pos hto] at ha
      cases ha
    · rw [if_neg hto] at ha
      by_cases hlen : st.assignment.length = P.lectures.length
      · rw [if_pos hlen] at ha
        simp only at ha
        rw [← Option.some.inj ha]
        exact ⟨hinv, hlen⟩
      · rw [if_neg hlen] at ha
        cases hsel : selectUnassignedVariable P st.assignment with
        | none => rw [hsel] at ha; simp at ha
        | some v =>
          rw [hsel] at ha
          have hfresh : dget st.assignment v = none :=
            selectUnassignedVariable_fresh P st.assignment v hsel
          exact tryValues_sound P (backtrack P fuel) v
            (backtrack_rollback P fuel) (ih) _
            { st with iterations := st.iterations + 1 } hfresh hinv a ha

/-- The empty assignment satisfies all hard constraints. -/
theorem checkAllConstraints_nil (lectures : List Lecture) :
    checkAllConstraints [] lectures = true := rfl

/-- `solve`'s starting state satisfies the invariant, so any returned
solution is conflict-free and complete. -/
theorem solve_sound (P : SearchParams) (fuel : Nat) (a : Assignment)
    (ha : (solve P fuel).1 = some a) :
    checkAllConstraints a P.lectures = true ∧
    a.length = P.lectures.length :=
  backtrack_sound P fuel { assignment := [], iterations := 0 }
    (checkAllConstraints_nil P.lectures) a ha

/-- One unfolding of `backtrack` at positive fuel, with the state's fields
exposed. -/
theorem backtrack_succ_eq (P : SearchParams) (f : Nat) (a : Assignment)
    (n : Nat) :
    backtrack P (f + 1) { assignment := a, iterations := n } =
      (if P.timeOut (n + 1) = true then
        (none, { assignment := a, iterations := n + 1 })
      else if a.length = P.lectures.length then
        (some a, { assignment := a, iterations := n + 1 })
      else
        match selectUnassignedVariable P a with
        | none => (none, { assignment := a, iterations := n + 1 })
        | some v =>
            tryValues P (backtrack P f) v
              (P.order (n + 1) (dgetD P.domains v []))
              { assignment := a, iterations := n + 1 }) := rfl

/-- With an empty-domain variable present, the top-level `_backtrack` call
fails at once: MRV picks a zero-count variable, whose domain must be
empty (any value is consistent with the empty assignment), so no value is
tried, nothing is assigned, and only one iteration happens. -/
theorem solve_exhausts_at_empty_domain (P : SearchParams) (fuel : Nat)
    (hfuel : 0 < fuel) (hto : P.timeOut 1 = false)
    (horder : ∀ n (l : List Value), (P.order n l).Perm l)
    (l : Lecture) (hl : l ∈ P.lectures)
    (hdom : dgetD P.domains l.varName [] = []) :
    solve P fuel = (none, { assignment := [], iterations := 1 }) := by
  obtain ⟨f, rfl⟩ := Nat.exists_eq_succ_of_ne_zero (Nat.pos_iff_ne_zero.mp hfuel)
  have hne : P.lectures ≠ [] := List.ne_nil_of_mem hl
  have hunas : unassignedVars P [] ≠ [] := by
    rw [unassignedVars_empty]
    simpa using hne
  have hsome := foldl_selectStep_isSome P [] (unassignedVars P []) none
    (Or.inl hunas)
  obtain ⟨p, hp⟩ := Option.isSome_iff_exists.mp hsome
  have hsel : selectUnassignedVariable P [] = some p.1 := by
    unfold selectUnassignedVariable
    rw [hp]
    rfl
  have hminl := selectUnassignedVariable_min P [] p.1 hsel l.varName
    (by rw [unassignedVars_empty]; exact List.mem_map.mpr ⟨l, hl, rfl⟩)
  rw [remainingValues_empty, remainingValues_empty, hdom] at hminl
  simp only [List.length_nil] at hminl
  have hdomv : dgetD P.domains p.1 [] = [] :=
    List.eq_nil_of_length_eq_zero (Nat.le_zero.mp hminl)
  have hordv : P.order 1 (dgetD P.domains p.1 []) = [] := by
    rw [hdomv]
    exact List.Perm.eq_nil (horder 1 [])
  have hlen0 : ¬ (([] : Assignment).length = P.lectures.length) := by
    simp only [List.length_nil]
    intro h0
    exact hne (List.eq_nil_of_length_eq_zero h0.symm)
  unfold solve
  rw [backtrack_succ_eq]
  rw [if_neg (by rw [Nat.zero_add, hto]; exact Bool.false_ne_true)]
  rw [if_neg hlen0]
  rw [hsel]
  show tryValues P (backtrack P f) p.1 (P.order 1 (dgetD P.domains p.1 []))
    { assignment := [], iterations := 1 } =
    (none, { assignment := [], iterations := 1 })
  rw [hordv]
  rfl

/-- When the timeout oracle fires at the very first check, `solve` fails
after one iteration with nothing assigned (this is what a negative
timeout produces: elapsed time is immediately above it). -/
theorem solve_timeout_none (P : SearchParams) (fuel : Nat)
    (hfuel : 0 < fuel) (hto : P.timeOut 1 = true) :
    solve P fuel = (none, { assignment := [], iterations := 1 }) := by
  obtain ⟨f, rfl⟩ := Nat.exists_eq_succ_of_ne_zero (Nat.pos_iff_ne_zero.mp hfuel)
  unfold solve
  rw [backtrack_succ_eq]
  rw [if_pos (by rw [Nat.zero_add]; exact hto)]

/-- With an empty variable set, the very first completeness check fires
and `solve` returns the empty assignment as a solution. -/
theorem solve_empty_lectures (P : SearchParams) (fuel : Nat)
    (hfuel : 0 < fuel) (hlec : P.lectures = []) (hto : P.timeOut 1 = false) :
    solve P fuel = (some [], { assignment := [], iterations := 1 }) := by
  obtain ⟨f, rfl⟩ := Nat.exists_eq_succ_of_ne_zero (Nat.pos_iff_ne_zero.mp hfuel)
  unfold solve
  rw [backtrack_succ_eq]
  rw [if_neg (by rw [Nat.zero_add, hto]; exact Bool.false_ne_true)]
  rw [if_pos (by rw [hlec]; rfl)]

/-! ## Claims about the search engine -/

/-- **C1.** Soundness of the search: for every assignment that `solve`
returns as solved, the Constraint Checker's conflict enumeration
(`get_conflicts`) over it is empty — no instructor, room or section
double-booking exists — and the assignment has one entry per lecture
variable. -/
theorem solved_assignment_has_no_conflicts (P : SearchParams) (fuel : Nat)
    (a : Assignment) (ha : (solve P fuel).1 = some a) :
    getConflicts a P.lectures = [] ∧ a.length = P.lectures.length := by
  obtain ⟨hchk, hlen⟩ := solve_sound P fuel a ha
  exact ⟨getConflicts_eq_nil_of_checkAll a P.lectures hchk, hlen⟩

/-- A two-lecture solvable instance for exercising `solve`. -/
def lecC1a : Lecture := { courseId := "C1", sectionId := "S1", lectureNumber := 1 }

def lecC1b : Lecture := { courseId := "C2", sectionId := "S1", lectureNumber := 1 }

def paramsC1 : SearchParams :=
  { lectures := [lecC1a, lecC1b]
  , domains := [(lecC1a.varName, [("TS0", "R1", "P1")]),
                (lecC1b.varName, [("TS1", "R1", "P1")])]
  , order := fun _ d => d
  , timeOut := fun _ => false }

def solutionC1 : Assignment :=
  [(lecC1a.varName, ("TS0", "R1", "P1")), (lecC1b.varName, ("TS1", "R1", "P1"))]

theorem solved_assignment_has_no_conflicts_witness :
    getConflicts solutionC1 paramsC1.lectures = [] ∧
    solutionC1.length = paramsC1.lectures.length :=
  solved_assignment_has_no_conflicts paramsC1 5 solutionC1 (by decide)

/-- **C3.** Empty-domain short-circuit: when some lecture's top-level
domain is empty (or its key is absent from the domain mapping), `solve`
fails immediately — the MRV selection returns a zero-count variable whose
domain is empty, no value is tried, no assignment is ever made, and
exactly one search iteration happens. -/
theorem solve_fails_fast_on_empty_domain (P : SearchParams) (fuel : Nat)
    (hfuel : 0 < fuel) (hto : P.timeOut 1 = false)
    (horder : ∀ n (l : List Value), (P.order n l).Perm l)
    (l : Lecture) (hl : l ∈ P.lectures)
    (hdom : dgetD P.domains l.varName [] = []) :
    solve P fuel = (none, { assignment := [], iterations := 1 }) :=
  solve_exhausts_at_empty_domain P fuel hfuel hto horder l hl hdom

def lecC3 : Lecture := { courseId := "C1", sectionId := "S1", lectureNumber := 1 }

def paramsC3 : SearchParams :=
  { lectures := [lecC3], domains := [], order := fun _ d => d,
    timeOut := fun _ => false }

theorem solve_fails_fast_on_empty_domain_witness :
    solve paramsC3 5 = (none, { assignment := [], iterations := 1 }) :=
  solve_fails_fast_on_empty_domain paramsC3 5 (by decide) rfl
    (fun _ l => List.Perm.refl l) lecC3 (by decide) (by decide)

/-- **C4** (counterexample). `solve` does not return a structured failure:
a run whose timeout check fires (the timed-out outcome) and a run that
exhausts an empty domain without ever timing out (the exhausted outcome)
return the very same value — `none` with identical final state — so the
returned value alone cannot tell the two apart, and no partial-assignment
size is part of it. -/
def lecC4 : Lecture := { courseId := "C1", sectionId := "S1", lectureNumber := 1 }

def paramsExhC4 : SearchParams :=
  { lectures := [lecC4], domains := [], order := fun _ d => d,
    timeOut := fun _ => false }

def paramsTimeC4 : SearchParams :=
  { lectures := [lecC4], domains := [(lecC4.varName, [("TS0", "R1", "P1")])],
    order := fun _ d => d, timeOut := fun _ => true }

theorem solve_failures_share_value_cex :
    paramsTimeC4.timeOut 1 = true ∧ paramsExhC4.timeOut 1 = false ∧
    solve paramsExhC4 5 = (none, { assignment := [], iterations := 1 }) ∧
    solve paramsTimeC4 5 = (none, { assignment := [], iterations := 1 }) ∧
    (solve paramsExhC4 5).1 = (solve paramsTimeC4 5).1 :=
  ⟨rfl, rfl, by decide, by decide, by decide⟩

/-- **C4** (amended). Whenever `solve` fails it returns the bare value
`none`, identical for the timed-out and the exhausted outcome; the
distinction (and the partial-assignment size) is only printed, never
returned, so a caller cannot tell the two apart from the returned value. -/
theorem solve_failure_result_uniform (P Q : SearchParams)
    (fuel fuelQ : Nat) (hfuel : 0 < fuel) (hfuelQ : 0 < fuelQ)
    (hto : P.timeOut 1 = true) (hQto : Q.timeOut 1 = false)
    (hQorder : ∀ n (l : List Value), (Q.order n l).Perm l)
    (l : Lecture) (hl : l ∈ Q.lectures)
    (hdom : dgetD Q.domains l.varName [] = []) :
    (solve P fuel).1 = none ∧ (solve Q fuelQ).1 = none ∧
    (solve P fuel).1 = (solve Q fuelQ).1 := by
  have h1 := solve_timeout_none P fuel hfuel hto
  have h2 := solve_exhausts_at_empty_domain Q fuelQ hfuelQ hQto hQorder l hl hdom
  rw [h1, h2]
  exact ⟨rfl, rfl, rfl⟩

theorem solve_failure_result_uniform_witness :
    (solve paramsTimeC4 5).1 = none ∧ (solve paramsExhC4 5).1 = none ∧
    (solve paramsTimeC4 5).1 = (solve paramsExhC4 5).1 :=
  solve_failure_result_uniform paramsTimeC4 paramsExhC4 5 5 (by decide)
    (by decide) rfl rfl (fun _ l => List.Perm.refl l) lecC4 (by decide)
    (by decide)

/-- **C5** (counterexample). No eager input validation exists: a call with
an empty variable set is not rejected — it returns the empty assignment as
a *solution* after performing a search iteration — and a call whose
timeout is already expired at the first check (the behaviour a negative
timeout produces) returns the ordinary search-failure value `none`, not a
distinct invalid-input signal. -/
def paramsEmptyC5 : SearchParams :=
  { lectures := [], domains := [], order := fun _ d => d,
    timeOut := fun _ => false }

def lecC5 : Lecture := { courseId := "C1", sectionId := "S1", lectureNumber := 1 }

def paramsNegC5 : SearchParams :=
  { lectures := [lecC5], domains := [(lecC5.varName, [("TS0", "R1", "P1")])],
    order := fun _ d => d, timeOut := fun _ => true }

theorem solve_no_input_validation_cex :
    solve paramsEmptyC5 5 = (some [], { assignment := [], iterations := 1 }) ∧
    (solve paramsNegC5 5).1 = none :=
  ⟨by decide, by decide⟩

/-- **C5** (amended). `solve` performs no validation before searching: an
empty variable set makes the first completeness check fire, returning the
empty assignment as solved, and a negative timeout merely makes the first
elapsed-time check fire, returning the ordinary failure value `none` —
neither case is distinguishable from a normal search outcome. -/
theorem solve_malformed_config_behaviour (P : SearchParams) (fuel : Nat)
    (hfuel : 0 < fuel) :
    (P.lectures = [] → P.timeOut 1 = false →
      solve P fuel = (some [], { assignment := [], iterations := 1 })) ∧
    (P.timeOut 1 = true → (solve P fuel).1 = none) := by
  constructor
  · intro hlec hto
    exact solve_empty_lectures P fuel hfuel hlec hto
  · intro hto
    rw [solve_timeout_none P fuel hfuel hto]

theorem solve_malformed_config_behaviour_witness :
    solve paramsEmptyC5 5 = (some [], { assignment := [], iterations := 1 }) ∧
    (solve paramsNegC5 5).1 = none :=
  ⟨(solve_malformed_config_behaviour paramsEmptyC5 5 (by decide)).1 rfl rfl,
   (solve_malformed_config_behaviour paramsNegC5 5 (by decide)).2 rfl⟩

/-- **C10.** Rollback on failure: whenever the backtracking search fails —
by exhaustion or by timeout at any depth — every tentative commit has been
undone, so the solver's assignment mapping is empty after every failed
`solve` call. -/
theorem failed_solve_leaves_assignment_empty (P : SearchParams) (fuel : Nat)
    (h : (solve P fuel).1 = none) : (solve P fuel).2.assignment = [] :=
  backtrack_rollback P fuel { assignment := [], iterations := 0 } h

def lecC10a : Lecture := { courseId := "C1", sectionId := "S1", lectureNumber := 1 }

def lecC10b : Lecture := { courseId := "C2", sectionId := "S1", lectureNumber := 1 }

/-- A forced section conflict: both lectures of one section can only take
the same timeslot, so the search commits one lecture, fails on the other,
and must undo the commit before giving up. -/
def paramsC10 : SearchParams :=
  { lectures := [lecC10a, lecC10b]
  , domains := [(lecC10a.varName, [("TS0", "R1", "P1")]),
                (lecC10b.varName, [("TS0", "R2", "P2")])]
  , order := fun _ d => d
  , timeOut := fun _ => false }

theorem failed_solve_leaves_assignment_empty_witness :
    (solve paramsC10 5).2.assignment = [] :=
  failed_solve_leaves_assignment_empty paramsC10 5 (by decide)

/-! ## Claims about the domain generator -/

/-- Every stored entry of `build_domains` is the generated domain of some
lecture of the list bearing that key (the last such lecture, because a
repeated key overwrites). -/
theorem buildDomains_entry_from_lecture (L : Loader) :
    ∀ (lectures : List Lecture) (m : List (String × List Value)) (k : String)
      (d : List Value),
      dget (lectures.foldl
        (fun doms lec =>
          match buildDomainFor L lec with
          | none => doms
          | some dl => dinsert doms lec.varName dl) m) k = some d →
      dget m k = some d ∨
        ∃ lec ∈ lectures, lec.varName = k ∧ buildDomainFor L lec = some d := by
  intro lectures
  induction lectures with
  | nil =>
    intro m k d h
    exact Or.inl h
  | cons lec rest ih =>
    intro m k d h
    rw [List.foldl_cons] at h
    cases hbd : buildDomainFor L lec with
    | none =>
      rw [hbd] at h
      rcases ih m k d h with h1 | ⟨lec2, hmem, hk, hd⟩
      · exact Or.inl h1
      · exact Or.inr ⟨lec2, List.mem_cons_of_mem lec hmem, hk, hd⟩
    | some dl =>
      rw [hbd] at h
      rcases ih (dinsert m lec.varName dl) k d h with h1 | ⟨lec2, hmem, hk, hd⟩
      · by_cases hkey : k = lec.varName
        · subst hkey
          rw [dget_dinsert_self] at h1
          exact Or.inr ⟨lec, List.mem_cons_self lec rest, rfl,
            by rw [hbd, Option.some.inj h1]⟩
        · rw [dget_dinsert_ne m lec.varName k dl hkey] at h1
          exact Or.inl h1
      · exact Or.inr ⟨lec2, List.mem_cons_of_mem lec hmem, hk, hd⟩

/-- Unpacking one generated domain: every triple in it passes the three
unary filters of the generation loops. -/
theorem buildDomainFor_member (L : Loader) (lec : Lecture) (d : List Value)
    (hd : buildDomainFor L lec = some d) (ts room instructor : String)
    (hmem : (ts, room, instructor) ∈ d) :
    ∃ ci, getCourseInfo L lec.courseId = some ci ∧
      room ∈ getRoomsByType L
        (if strContains ci.ctype "Lab" then "Lab" else "Lecture") ∧
      instructor ∈ getQualifiedInstructors L lec.courseId ∧
      ∃ day, tsDayOf L ts = some day ∧
        instructorBlockedOnDay L instructor day = false := by
  unfold buildDomainFor at hd
  cases hci : getCourseInfo L lec.courseId with
  | none => rw [hci] at hd; cases hd
  | some ci =>
    rw [hci] at hd
    simp only at hd
    by_cases hq : getQualifiedInstructors L lec.courseId = []
    · rw [if_pos hq] at hd; cases hd
    · rw [if_neg hq] at hd
      refine ⟨ci, rfl, ?_⟩
      rw [← Option.some.inj hd] at hmem
      rcases List.mem_flatMap.mp hmem with ⟨tsId, htsId, hmem2⟩
      cases hrow : L.timeslots.find? (fun r => decide (r.id = tsId)) with
      | none => rw [hrow] at hmem2; cases hmem2
      | some row =>
        rw [hrow] at hmem2
        rcases List.mem_flatMap.mp hmem2 with ⟨roomId, hroomId, hmem3⟩
        rcases List.mem_filterMap.mp hmem3 with ⟨iid, hiid, hval⟩
        by_cases hblock : instructorBlockedOnDay L iid row.day = true
        · rw [if_pos hblock] at hval; cases hval
        · rw [if_neg hblock] at hval
          have hts : tsId = ts := (Prod.mk.injEq .. ▸ Option.some.inj hval).1
          have hrest := (Prod.mk.injEq .. ▸ Option.some.inj hval).2
          have hroom : roomId = room := (Prod.mk.injEq .. ▸ hrest).1
          have hinst : iid = instructor := (Prod.mk.injEq .. ▸ hrest).2
          subst hts hroom hinst
          refine ⟨hroomId, hiid, row.day, ?_, ?_⟩
          · unfold tsDayOf
            rw [hrow]
            rfl
          · exact Bool.not_eq_true _ ▸ hblock

/-- **C2.** Completeness of the domain unary filters: every triple in any
domain that `build_domains` stores belongs to a lecture bearing that key,
and it satisfies all three unary feasibility rules — the room comes from
the rooms of the type the course requires (lab courses get lab rooms,
others lecture rooms), the instructor is qualified for the course, and
the instructor is not blocked on the weekday of the timeslot. -/
theorem buildDomains_values_satisfy_unary_filters (L : Loader)
    (lectures : List Lecture) (k : String) (d : List Value)
    (hd : dget (buildDomains L lectures) k = some d)
    (ts room instructor : String) (hmem : (ts, room, instructor) ∈ d) :
    ∃ lec ∈ lectures, lec.varName = k ∧
      ∃ ci, getCourseInfo L lec.courseId = some ci ∧
        room ∈ getRoomsByType L
          (if strContains ci.ctype "Lab" then "Lab" else "Lecture") ∧
        instructor ∈ getQualifiedInstructors L lec.courseId ∧
        ∃ day, tsDayOf L ts = some day ∧
          instructorBlockedOnDay L instructor day = false := by
  unfold buildDomains at hd
  rcases buildDomains_entry_from_lecture L lectures [] k d hd with h0 | h1
  · cases h0
  · rcases h1 with ⟨lec, hmeml, hk, hbd⟩
    exact ⟨lec, hmeml, hk, buildDomainFor_member L lec d hbd ts room instructor hmem⟩

/-- Reference tables exercising all three unary filters: a lab course, a
lecture course, an instructor unavailable on Sunday. -/
def loaderC2 : Loader :=
  { courses := [{ id := "C1", credits := 3, ctype := "Lecture" },
                { id := "C2", credits := 3, ctype := "Lecture and Lab" }]
  , instructors := [{ id := "P1", qualified := ["C1"], unavailable := none },
                    { id := "P2", qualified := ["C1", "C2"],
                      unavailable := some "Sun" }]
  , rooms := [{ id := "R1", rtype := "Lecture" }, { id := "L1", rtype := "Lab" }]
  , timeslots := [{ id := "TS0", day := "Sun" }, { id := "TS1", day := "Mon" }]
  , sections := [{ id := "S1", courses := ["C1", "C2", "C9"] }] }

def lecturesC2 : List Lecture := buildLecturesForSections loaderC2 ["S1"]

theorem buildDomains_values_satisfy_unary_filters_witness :
    ∃ lec ∈ lecturesC2, lec.varName = "S1_C1_L1" ∧
      ∃ ci, getCourseInfo loaderC2 lec.courseId = some ci ∧
        "R1" ∈ getRoomsByType loaderC2
          (if strContains ci.ctype "Lab" then "Lab" else "Lecture") ∧
        "P2" ∈ getQualifiedInstructors loaderC2 lec.courseId ∧
        ∃ day, tsDayOf loaderC2 "TS1" = some day ∧
          instructorBlockedOnDay loaderC2 "P2" day = false :=
  buildDomains_values_satisfy_unary_filters loaderC2 lecturesC2 "S1_C1_L1"
    [("TS0", "R1", "P1"), ("TS1", "R1", "P1"), ("TS1", "R1", "P2")]
    (by decide) "TS1" "R1" "P2" (by decide)

/-- A course with a course-table row but no qualified instructor at all. -/
def loaderC6 : Loader :=
  { courses := [{ id := "C1", credits := 3, ctype := "Lecture" }]
  , instructors := []
  , rooms := [{ id := "R1", rtype := "Lecture" }]
  , timeslots := [{ id := "TS0", day := "Sun" }]
  , sections := [{ id := "S1", courses := ["C1"] }] }

def lecC6 : Lecture := { courseId := "C1", sectionId := "S1", lectureNumber := 1 }

/-- **C6** (counterexample). The lecture for a course with no qualified
instructor is still created, but `build_domains` skips it with `continue`
before the store, so the mapping does **not** contain its key bound to an
empty domain — the key is absent altogether. -/
theorem buildDomains_key_absent_cex :
    lecC6 ∈ buildLecturesForSections loaderC6 ["S1"] ∧
    getQualifiedInstructors loaderC6 lecC6.courseId = [] ∧
    dget (buildDomains loaderC6 (buildLecturesForSections loaderC6 ["S1"]))
      lecC6.varName = none :=
  ⟨by decide, by decide, by decide⟩

/-- A lecture whose course has no qualified instructor generates no
domain. -/
theorem buildDomainFor_none_of_no_qualified (L : Loader) (lec : Lecture)
    (h : getQualifiedInstructors L lec.courseId = []) :
    buildDomainFor L lec = none := by
  unfold buildDomainFor
  cases getCourseInfo L lec.courseId with
  | none => rfl
  | some ci => simp [h]

/-- **C6** (amended). `build_domains` omits the key of a lecture whose
course has no qualified instructor (rather than binding it to an empty
domain): when every lecture bearing a key lacks a qualified instructor,
the produced mapping has no entry for that key, and the solver's
`.get(key, [])` lookups see the missing key as an empty domain. -/
theorem buildDomains_omits_unqualified_keys (L : Loader)
    (lectures : List Lecture) (k : String)
    (h : ∀ lec ∈ lectures, lec.varName = k →
      getQualifiedInstructors L lec.courseId = []) :
    dget (buildDomains L lectures) k = none ∧
    dgetD (buildDomains L lectures) k [] = [] := by
  have hmain : ∀ (ls : List Lecture) (m : List (String × List Value)),
      (∀ lec ∈ ls, lec.varName = k →
        getQualifiedInstructors L lec.courseId = []) →
      dget (ls.foldl
        (fun doms lec =>
          match buildDomainFor L lec with
          | none => doms
          | some dl => dinsert doms lec.varName dl) m) k = dget m k := by
    intro ls
    induction ls with
    | nil => intro m _; rfl
    | cons lec rest ih =>
      intro m hls
      rw [List.foldl_cons]
      cases hbd : buildDomainFor L lec with
      | none =>
        exact ih m (fun l hl hk => hls l (List.mem_cons_of_mem lec hl) hk)
      | some dl =>
        have hk : lec.varName ≠ k := by
          intro hkk
          have := buildDomainFor_none_of_no_qualified L lec
            (hls lec (List.mem_cons_self lec rest) hkk)
          rw [this] at hbd
          cases hbd
        rw [ih (dinsert m lec.varName dl)
          (fun l hl hkk => hls l (List.mem_cons_of_mem lec hl) hkk)]
        exact dget_dinsert_ne m lec.varName k dl (Ne.symm hk)
  have h0 : dget (buildDomains L lectures) k = none := by
    unfold buildDomains
    rw [hmain lectures [] h]
    rfl
  exact ⟨h0, by rw [dgetD, h0]; rfl⟩

theorem buildDomains_omits_unqualified_keys_witness :
    dget (buildDomains loaderC6 (buildLecturesForSections loaderC6 ["S1"]))
      lecC6.varName = none ∧
    dgetD (buildDomains loaderC6 (buildLecturesForSections loaderC6 ["S1"]))
      lecC6.varName [] = [] :=
  buildDomains_omits_unqualified_keys loaderC6
    (buildLecturesForSections loaderC6 ["S1"]) lecC6.varName (by decide)

/-! ## Claims about the quality scorer: gap penalty -/

/-- The spec's notion of idle slots for one `(section, day)` group: the
positions of the day's ordered slot list strictly between the group's
first and last occupied position that no session occupies. -/
def idleSlotsOfGroup (L : Loader) (day : String) (slots : List String) :
    Nat :=
  let daySlots := getAvailableTimeslotsForDay L day
  let idxs := slots.map (fun ts => daySlots.indexOf ts)
  match idxs.max?, idxs.min? with
  | some hi, some lo => (hi + 1 - lo) - idxs.dedup.length
  | _, _ => 0

/-- The spec's total count of same-weekday, same-section idle slots. -/
def idleSlots (L : Loader) (assignment : Assignment)
    (lectures : List Lecture) : Nat :=
  ((groupBySectionAndDay L assignment lectures).map
    (fun g => idleSlotsOfGroup L g.1.2 g.2)).sum

/-- A timeslot table whose Tuesday mixes one- and two-digit slot ids, the
shape the real data has (`TS8 … TS11`). -/
def loaderC9 : Loader :=
  { courses := [], instructors := [], rooms := []
  , timeslots := [{ id := "TS0", day := "Sun" }, { id := "TS1", day := "Sun" },
                  { id := "TS2", day := "Sun" }, { id := "TS3", day := "Sun" },
                  { id := "TS8", day := "Tue" }, { id := "TS9", day := "Tue" },
                  { id := "TS10", day := "Tue" }, { id := "TS11", day := "Tue" }]
  , sections := [] }

def lecC9a : Lecture := { courseId := "C1", sectionId := "S1", lectureNumber := 1 }

def lecC9b : Lecture := { courseId := "C1", sectionId := "S1", lectureNumber := 2 }

def lecturesC9 : List Lecture := [lecC9a, lecC9b]

/-- Two sessions of one section at Tuesday `TS8` and `TS11`: two idle
slots (`TS9`, `TS10`) lie between them. -/
def assignC9A : Assignment :=
  [(lecC9a.varName, ("TS8", "R1", "P1")), (lecC9b.varName, ("TS11", "R2", "P2"))]

/-- The same two sessions moved to Sunday `TS0` and `TS2`: one idle slot
(`TS1`) lies between them. -/
def assignC9B : Assignment :=
  [(lecC9a.varName, ("TS0", "R1", "P1")), (lecC9b.varName, ("TS2", "R2", "P2"))]

/-- **C9** (code bug, failing input). Monotonicity of the gap penalty
fails: assignment B leaves strictly fewer same-weekday, same-section idle
slots than assignment A (one against two), yet its gap penalty is larger
(10 against 0).  The cause: `sorted()` sorts the timeslot **strings**
lexicographically, so Tuesday's pair is visited as `(TS11, TS8)`, the
computed index gap `0 - 3 - 1` is negative, and the `gap_size > 0` test
throws the penalty away. -/
theorem gap_penalty_not_monotone_on_code :
    idleSlots loaderC9 assignC9B lecturesC9 = 1 ∧
    idleSlots loaderC9 assignC9A lecturesC9 = 2 ∧
    calculateGapPenalty loaderC9 assignC9A lecturesC9 = 0 ∧
    calculateGapPenalty loaderC9 assignC9B lecturesC9 = 10 ∧
    sortedStrings ["TS8", "TS11"] = ["TS11", "TS8"] :=
  ⟨by decide, by decide, by decide, by decide, by decide⟩

/-! ## Claims about the quality scorer: room-distance penalty -/

/-- The combined key extractor of `_group_by_section_and_day` (`none`
exactly where that loop skips an item). -/
def sdKey (L : Loader) (lectures : List Lecture) (it : String × Value) :
    Option (String × String) :=
  match lectureOfVar lectures it.1 with
  | none => none
  | some lec =>
    match tsDayOf L it.2.1 with
    | none => none
    | some day => some (lec.sectionId, day)

/-- The combined key extractor of `_group_by_instructor_and_day`. -/
def idKey (L : Loader) (it : String × Value) : Option (String × String) :=
  match tsDayOf L it.2.1 with
  | none => none
  | some day => some (it.2.2.2, day)

/-- The values a grouping with key extractor `f` and value extractor `g`
collects under key `k`. -/
def groupedValues {κ α : Type} [DecidableEq κ]
    (f : String × Value → Option κ) (g : String × Value → α)
    (items : Assignment) (k : κ) : List α :=
  (items.filter (fun it => decide (f it = some k))).map g

theorem groupedValues_nil {κ α : Type} [DecidableEq κ]
    (f : String × Value → Option κ) (g : String × Value → α) (k : κ) :
    groupedValues f g [] k = [] := rfl

theorem groupedValues_cons {κ α : Type} [DecidableEq κ]
    (f : String × Value → Option κ) (g : String × Value → α)
    (it : String × Value) (items : Assignment) (k : κ) :
    groupedValues f g (it :: items) k =
      if f it = some k then g it :: groupedValues f g items k
      else groupedValues f g items k := by
  by_cases h : f it = some k <;> simp [groupedValues, List.filter, h]

/-- One step of a grouping fold with key extractor `f` and value
extractor `g`. -/
def groupStep {κ α : Type} [DecidableEq κ] (f : String × Value → Option κ)
    (g : String × Value → α) (m : List (κ × List α)) (it : String × Value) :
    List (κ × List α) :=
  match f it with
  | some k' => dappendGroup m k' (g it)
  | none => m

/-- The characterisation of any grouping fold built from `dappendGroup`:
the entry under key `k` holds the extracted values of the items whose key
is `k`, in item order. -/
theorem dget_groupFold {κ α : Type} [DecidableEq κ] [DecidableEq α]
    (f : String × Value → Option κ) (g : String × Value → α) :
    ∀ (items : Assignment) (m : List (κ × List α)) (k : κ),
      dget (items.foldl (groupStep f g) m) k =
      match dget m k with
      | some xs => some (xs ++ groupedValues f g items k)
      | none =>
          if groupedValues f g items k = [] then none
          else some (groupedValues f g items k) := by
  intro items
  induction items with
  | nil =>
    intro m k
    simp only [List.foldl_nil, groupedValues_nil]
    cases dget m k <;> simp
  | cons it rest ih =>
    intro m k
    rw [List.foldl_cons]
    cases hf : f it with
    | none =>
      have hstep : groupStep f g m it = m := by
        unfold groupStep
        rw [hf]
      rw [hstep, ih m k, groupedValues_cons]
      simp [hf]
    | some k' =>
      have hstep : groupStep f g m it = dappendGroup m k' (g it) := by
        unfold groupStep
        rw [hf]
      rw [hstep]
      by_cases hkk : k' = k
      · subst hkk
        rw [ih (dappendGroup m k' (g it)) k', groupedValues_cons,
          dget_dappendGroup_self]
        simp only [hf, if_pos rfl]
        cases hg : dget m k' with
        | some xs => simp [dgetD, hg, List.append_assoc]
        | none => simp [dgetD, hg]
      · rw [ih (dappendGroup m k' (g it)) k,
          dget_dappendGroup_ne m k' k (g it) (Ne.symm hkk), groupedValues_cons]
        have : ¬ (f it = some k) := by
          rw [hf]
          exact fun hh => hkk (Option.some.inj hh)
        simp [this]

/-- `_group_by_section_and_day` as a grouping fold over `sdKey`. -/
theorem groupBySectionAndDay_eq_fold (L : Loader) (assignment : Assignment)
    (lectures : List Lecture) :
    groupBySectionAndDay L assignment lectures =
      assignment.foldl (groupStep (sdKey L lectures) (fun it => it.2.1)) [] := by
  unfold groupBySectionAndDay
  apply List.foldl_ext
  intro m it _
  unfold groupStep sdKey
  cases lectureOfVar lectures it.1 with
  | none => rfl
  | some lec =>
    cases tsDayOf L it.2.1 with
    | none => rfl
    | some day => rfl

/-- The timeslots of one `(section, day)` group. -/
theorem dget_groupBySectionAndDay (L : Loader) (assignment : Assignment)
    (lectures : List Lecture) (k : String × String) :
    dget (groupBySectionAndDay L assignment lectures) k =
      if groupedValues (sdKey L lectures) (fun it => it.2.1) assignment k = []
      then none
      else some (groupedValues (sdKey L lectures) (fun it => it.2.1)
        assignment k) := by
  rw [groupBySectionAndDay_eq_fold,
    dget_groupFold (sdKey L lectures) (fun it => it.2.1) assignment [] k]
  rfl

/-- A member of a filtered list of length at most one is its only
element. -/
theorem filter_eq_singleton_of_mem_of_le_one {α : Type} (l : List α)
    (p : α → Bool) (x : α) (hx : x ∈ l.filter p)
    (hlen : (l.filter p).length ≤ 1) : l.filter p = [x] := by
  cases hf : l.filter p with
  | nil => rw [hf] at hx; cases hx
  | cons a rest =>
    rw [hf] at hx hlen
    cases rest with
    | nil =>
      rcases List.mem_singleton.mp hx with rfl
      rfl
    | cons b rest2 => simp at hlen

/-- **C8** (amended, the reading the code supports). The rooms the
room-distance scan compares come from the whole assignment: at each
timeslot of the pair it takes the room of the *last* lecture in the
assignment's iteration order occupying that timeslot, whatever its
section or instructor.  When every timeslot is occupied by at most one
lecture, that room is exactly the room of the examined group's own
session, recovering the claimed behaviour. -/
theorem room_scan_matches_group_under_unique_occupancy (L : Loader)
    (assignment : Assignment) (lectures : List Lecture)
    (hu : ∀ ts ∈ assignment.map (fun it => it.2.1),
      (assignment.filter (fun it => decide (it.2.1 = ts))).length ≤ 1)
    (s d : String) (slots : List String)
    (hg : dget (groupBySectionAndDay L assignment lectures) (s, d) =
      some slots)
    (ts : String) (hts : ts ∈ slots) :
    ∃ v room instructor, (v, (ts, room, instructor)) ∈ assignment ∧
      lastRoomAt assignment ts = some room ∧
      ∃ lec, lectureOfVar lectures v = some lec ∧ lec.sectionId = s := by
  rw [dget_groupBySectionAndDay] at hg
  by_cases hempty :
      groupedValues (sdKey L lectures) (fun it => it.2.1) assignment (s, d) = []
  · rw [if_pos hempty] at hg; cases hg
  · rw [if_neg hempty] at hg
    rw [← Option.some.inj hg] at hts
    unfold groupedValues at hts
    rcases List.mem_map.mp hts with ⟨it, hitmem, hits⟩
    have hitassign : it ∈ assignment := List.mem_of_mem_filter hitmem
    have hitkey : sdKey L lectures it = some (s, d) := by
      have := List.of_mem_filter hitmem
      simpa using this
    have hts_mem : ts ∈ assignment.map (fun p => p.2.1) :=
      List.mem_map.mpr ⟨it, hitassign, hits⟩
    have hit_eq : (it.1, (ts, it.2.2.1, it.2.2.2)) = it := by
      rw [← hits]
    refine ⟨it.1, it.2.2.1, it.2.2.2, ?_, ?_, ?_⟩
    · rw [hit_eq]
      exact hitassign
    · unfold lastRoomAt
      have hmemf : it ∈ assignment.filter (fun p => decide (p.2.1 = ts)) :=
        List.mem_filter.mpr ⟨hitassign, by simp [hits]⟩
      rw [filter_eq_singleton_of_mem_of_le_one assignment _ it hmemf
        (hu ts hts_mem)]
      simp [hits]
    · unfold sdKey at hitkey
      cases hlec : lectureOfVar lectures it.1 with
      | none => rw [hlec] at hitkey; cases hitkey
      | some lec =>
        rw [hlec] at hitkey
        cases hday : tsDayOf L it.2.1 with
        | none => rw [hday] at hitkey; cases hitkey
        | some day0 =>
          rw [hday] at hitkey
          simp only at hitkey
          exact ⟨lec, rfl, (Prod.mk.injEq .. ▸ Option.some.inj hitkey).1⟩

/-! The claimed (spec) reading of the room-distance penalty: the rooms
compared are those of the two adjacent sessions of the group being
examined. -/

/-- `_group_by_section_and_day` extended to keep each session's room next
to its timeslot — what the claimed reading needs. -/
def groupBySectionAndDayRooms (L : Loader) (assignment : Assignment)
    (lectures : List Lecture) :
    List ((String × String) × List (String × String)) :=
  assignment.foldl
    (fun m it =>
      match lectureOfVar lectures it.1 with
      | none => m
      | some lec =>
        match tsDayOf L it.2.1 with
        | none => m
        | some day =>
            dappendGroup m (lec.sectionId, day) (it.2.1, it.2.2.1)) []

/-- `_group_by_instructor_and_day` with rooms kept. -/
def groupByInstructorAndDayRooms (L : Loader) (assignment : Assignment) :
    List ((String × String) × List (String × String)) :=
  assignment.foldl
    (fun m it =>
      match tsDayOf L it.2.1 with
      | none => m
      | some day => dappendGroup m (it.2.2.2, day) (it.2.1, it.2.2.1)) []

/-- Insertion into a session list ordered by timeslot position. -/
def insertByPosition (x : String × String) :
    List (String × String) → List (String × String)
  | [] => [x]
  | y :: rest =>
      if allSlots.indexOf x.1 ≤ allSlots.indexOf y.1 then x :: y :: rest
      else y :: insertByPosition x rest

/-- Sessions of one group sorted by timeslot position. -/
def sortSessionsByPosition (l : List (String × String)) :
    List (String × String) :=
  l.foldr insertByPosition []

/-- The claimed penalty of one group: for each pair of immediately
adjacent (back-to-back) sessions, the distance between the *pair's own*
two rooms, with the source's threshold and weight. -/
def claimedGroupPenalty (sessions : List (String × String)) : ℤ :=
  ((adjacentPairs (sortSessionsByPosition sessions)).map (fun p =>
    if allSlots.indexOf p.2.1 = allSlots.indexOf p.1.1 + 1 then
      (if 2 < roomDistance p.1.2 p.2.2 then roomDistance p.1.2 p.2.2 * 8
       else 0)
    else 0)).sum

/-- The room-distance penalty as claim C8 states it, section view and
instructor view summed. -/
def claimedRoomDistancePenalty (L : Loader) (assignment : Assignment)
    (lectures : List Lecture) : ℤ :=
  ((groupBySectionAndDayRooms L assignment lectures).map
    (fun g => claimedGroupPenalty g.2)).sum +
  ((groupByInstructorAndDayRooms L assignment).map
    (fun g => claimedGroupPenalty g.2)).sum

def loaderC8 : Loader :=
  { courses := [], instructors := [], rooms := []
  , timeslots := [{ id := "TS0", day := "Sun" }, { id := "TS1", day := "Sun" }]
  , sections := [] }

def lecC8a : Lecture := { courseId := "C1", sectionId := "S1", lectureNumber := 1 }

def lecC8b : Lecture := { courseId := "C1", sectionId := "S1", lectureNumber := 2 }

def lecC8c : Lecture := { courseId := "C2", sectionId := "S2", lectureNumber := 1 }

def lecturesC8 : List Lecture := [lecC8a, lecC8b, lecC8c]

/-- Section S1 sits back-to-back in the nearby rooms R1 and R2; section S2
shares timeslot TS1 from the distant room R100 and appears later in the
assignment's iteration order. -/
def assignC8 : Assignment :=
  [(lecC8a.varName, ("TS0", "R1", "P1")),
   (lecC8b.varName, ("TS1", "R2", "P2")),
   (lecC8c.varName, ("TS1", "R100", "P3"))]

/-- **C8** (counterexample). The code scans the whole assignment for a
room at each adjacent timeslot, so section S1's back-to-back pair is
charged with the distance from R1 to *R100* — the room of section S2's
lecture that happens to sit at the same timeslot — for a penalty of
`19 * 8 = 152`, although S1's own rooms R1, R2 are 0 apart and the
claimed (own-rooms) penalty is 0. -/
theorem room_distance_uses_other_lectures_rooms_cex :
    calculateRoomDistancePenalty loaderC8 assignC8 lecturesC8 = 152 ∧
    claimedRoomDistancePenalty loaderC8 assignC8 lecturesC8 = 0 ∧
    roomDistance "R1" "R2" = 0 ∧ roomDistance "R1" "R100" = 19 ∧
    lastRoomAt assignC8 "TS1" = some "R100" :=
  ⟨by decide, by decide, by decide, by decide, by decide⟩

/-- A unique-occupancy instance for the amended C8 theorem: only one
lecture sits at each timeslot. -/
def assignC8u : Assignment :=
  [(lecC8a.varName, ("TS0", "R1", "P1")),
   (lecC8b.varName, ("TS1", "R2", "P2"))]

theorem room_scan_matches_group_under_unique_occupancy_witness :
    ∃ v room instructor,
      (v, ("TS1", room, instructor)) ∈ assignC8u ∧
      lastRoomAt assignC8u "TS1" = some room ∧
      ∃ lec, lectureOfVar lecturesC8 v = some lec ∧ lec.sectionId = "S1" :=
  room_scan_matches_group_under_unique_occupancy loaderC8 assignC8u
    lecturesC8 (by decide) "S1" "Sun" ["TS0", "TS1"] (by decide) "TS1"
    (by decide)

/-! ## Claims about the quality scorer: balance bonus -/

/-- The weekdays of the timetable: the distinct days of the timeslot
table. -/
def weekDays (L : Loader) : List String :=
  (L.timeslots.map (fun r => r.day)).dedup

/-- The resolvable day of one item when it belongs to section `s`. -/
def sessionDayOf (L : Loader) (lectures : List Lecture) (s : String)
    (it : String × Value) : Option String :=
  match lectureOfVar lectures it.1 with
  | none => none
  | some lec => if lec.sectionId = s then tsDayOf L it.2.1 else none

/-- The resolvable session days of one section across an assignment (one
entry per session, repeats included). -/
def sessionDays (L : Loader) (assignment : Assignment)
    (lectures : List Lecture) (s : String) : List String :=
  assignment.filterMap (sessionDayOf L lectures s)

/-- The sections having at least one resolvable lecture in an
assignment. -/
def sectionsOf (assignment : Assignment) (lectures : List Lecture) :
    List String :=
  (assignment.filterMap (fun it =>
    (lectureOfVar lectures it.1).map (fun lec => lec.sectionId))).dedup

/-- One section's balance term as claim C7 states it: the population
standard deviation is taken over the per-weekday counts across the whole
week, weekdays without sessions contributing count 0. -/
noncomputable def claimedSectionBonus (L : Loader) (assignment : Assignment)
    (lectures : List Lecture) (s : String) : ℝ :=
  let ds := sessionDays L assignment lectures s
  let counts : List ℚ := (weekDays L).map (fun d => ((ds.count d : ℚ)))
  max 0 (5 - Real.sqrt ((listVariance counts : ℚ) : ℝ)) * 5

/-- The balance bonus as claim C7 states it. -/
noncomputable def claimedBalanceBonus (L : Loader) (assignment : Assignment)
    (lectures : List Lecture) : ℝ :=
  ((sectionsOf assignment lectures).map
    (claimedSectionBonus L assignment lectures)).sum

/-- A five-day week; both sessions of section S sit on day D1. -/
def loaderC7 : Loader :=
  { courses := [], instructors := [], rooms := []
  , timeslots := [{ id := "T1", day := "D1" }, { id := "T1b", day := "D1" },
                  { id := "T2", day := "D2" }, { id := "T3", day := "D3" },
                  { id := "T4", day := "D4" }, { id := "T5", day := "D5" }]
  , sections := [] }

def lecC7a : Lecture := { courseId := "C1", sectionId := "S", lectureNumber := 1 }

def lecC7b : Lecture := { courseId := "C1", sectionId := "S", lectureNumber := 2 }

def lecturesC7 : List Lecture := [lecC7a, lecC7b]

def assignC7 : Assignment :=
  [(lecC7a.varName, ("T1", "R1", "P1")), (lecC7b.varName, ("T1b", "R2", "P2"))]

/-- **C7** (counterexample). The code's per-section standard deviation is
taken over only the days *present* in the grouping dict, not the whole
week: with both sessions on one day the value list is `[2]`, the deviation
is 0 and the bonus is the maximal `5 × 5 = 25`; the claimed
whole-week counts `[2,0,0,0,0]` have deviation `4/5`, giving
`(5 - 4/5) × 5 = 21`. -/
theorem balance_bonus_ignores_empty_days_cex :
    calculateBalanceBonus loaderC7 assignC7 lecturesC7 = 25 ∧
    claimedBalanceBonus loaderC7 assignC7 lecturesC7 = 21 := by
  constructor
  · have h1 : balanceGroups loaderC7 assignC7 lecturesC7 =
        [("S", [("D1", 2)])] := by decide
    unfold calculateBalanceBonus
    rw [h1]
    have h2 : listVariance ([("D1", (2 : Nat))].map (fun p => ((p.2 : ℚ)))) = 0 := by
      norm_num [listVariance, listMean]
    simp only [List.foldl_cons, List.foldl_nil]
    rw [if_neg (by decide)]
    unfold balanceScoreOf
    simp only [h2]
    norm_num
  · have hsec : sectionsOf assignC7 lecturesC7 = ["S"] := by decide
    unfold claimedBalanceBonus
    rw [hsec]
    simp only [List.map_cons, List.map_nil, List.sum_cons, List.sum_nil]
    unfold claimedSectionBonus
    have hw : weekDays loaderC7 = ["D1", "D2", "D3", "D4", "D5"] := by decide
    have hds : sessionDays loaderC7 assignC7 lecturesC7 "S" = ["D1", "D1"] := by
      decide
    rw [hw, hds]
    have hcounts :
        (["D1", "D2", "D3", "D4", "D5"] : List String).map
          (fun d => (((["D1", "D1"] : List String).count d : ℚ))) =
        [2, 0, 0, 0, 0] := by
      have c1 : (["D1", "D1"] : List String).count "D1" = 2 := by decide
      have c2 : (["D1", "D1"] : List String).count "D2" = 0 := by decide
      have c3 : (["D1", "D1"] : List String).count "D3" = 0 := by decide
      have c4 : (["D1", "D1"] : List String).count "D4" = 0 := by decide
      have c5 : (["D1", "D1"] : List String).count "D5" = 0 := by decide
      simp only [List.map_cons, List.map_nil, c1, c2, c3, c4, c5]
      norm_num
    have hvar : listVariance [2, 0, 0, 0, 0] = 16 / 25 := by
      norm_num [listVariance, listMean]
    have hsqrt : Real.sqrt (((16 : ℚ) / 25 : ℚ) : ℝ) = 4 / 5 := by
      rw [show (((16 : ℚ) / 25 : ℚ) : ℝ) = (4 / 5 : ℝ) ^ 2 by norm_num]
      exact Real.sqrt_sq (by norm_num)
    simp only [hcounts, hvar, hsqrt]
    norm_num

/-! ### Characterising the balance grouping -/

theorem dget_bumpCount_self (m : List (String × Nat)) (k : String) :
    dget (bumpCount m k) k = some ((dget m k).getD 0 + 1) := by
  unfold bumpCount
  cases h : dget m k with
  | some n => rw [dget_dinsert_self]; rfl
  | none =>
    rw [dget_append, h]
    simp [dget, List.find?]

theorem dget_bumpCount_ne (m : List (String × Nat)) (k k' : String)
    (h : k' ≠ k) : dget (bumpCount m k) k' = dget m k' := by
  unfold bumpCount
  cases hg : dget m k with
  | some n => exact dget_dinsert_ne m k k' (n + 1) h
  | none =>
    rw [dget_append]
    have hone : dget [(k, 1)] k' = none := by
      simp [dget, List.find?, decide_eq_false (Ne.symm h)]
    rw [hone]
    cases dget m k' <;> rfl

theorem dkeys_nodup_bumpCount (m : List (String × Nat)) (k : String)
    (h : (dkeys m).Nodup) : (dkeys (bumpCount m k)).Nodup := by
  unfold bumpCount
  cases hg : dget m k with
  | some n =>
    have hany : m.any (fun p => decide (p.1 = k)) = true := by
      rcases mem_of_dget_eq_some m k n hg with hmem
      exact List.any_eq_true.mpr ⟨(k, n), hmem, by simp⟩
    rw [dkeys_dinsert_of_mem m k (n + 1) hany]
    exact h
  | none =>
    have hnotin : k ∉ dkeys m := by
      intro hmem
      rcases List.mem_map.mp hmem with ⟨p, hp, hpk⟩
      exact ((dget_eq_none_iff m k).mp hg p hp) hpk
    unfold dkeys
    rw [List.map_append]
    refine List.Nodup.append h (by simp) ?_
    intro a ha hb
    simp only [List.map_cons, List.map_nil, List.mem_singleton] at hb
    subst hb
    exact hnotin ha

theorem dkeys_dinsert_subset {κ α : Type} [DecidableEq κ]
    (m : List (κ × α)) (k : κ) (v : α) (hmem : k ∈ dkeys m) :
    dkeys (dinsert m k v) = dkeys m := by
  apply dkeys_dinsert_of_mem
  rcases List.mem_map.mp hmem with ⟨p, hp, hpk⟩
  exact List.any_eq_true.mpr ⟨p, hp, by simpa using hpk⟩

/-- One step of the balance-bonus grouping loop. -/
def balanceStep (L : Loader) (lectures : List Lecture)
    (m : List (String × List (String × Nat))) (it : String × Value) :
    List (String × List (String × Nat)) :=
  match lectureOfVar lectures it.1 with
  | none => m
  | some lec =>
    match tsDayOf L it.2.1 with
    | none => ensureKey m lec.sectionId
    | some day =>
        dinsert (ensureKey m lec.sectionId) lec.sectionId
          (bumpCount (dgetD (ensureKey m lec.sectionId) lec.sectionId []) day)

theorem balanceGroups_eq_fold (L : Loader) (assignment : Assignment)
    (lectures : List Lecture) :
    balanceGroups L assignment lectures =
      assignment.foldl (balanceStep L lectures) [] := by
  unfold balanceGroups
  apply List.foldl_ext
  intro m it _
  unfold balanceStep
  cases lectureOfVar lectures it.1 with
  | none => rfl
  | some lec =>
    cases tsDayOf L it.2.1 with
    | none => rfl
    | some day => rfl

/-- Whether a section has a resolvable lecture among the items. -/
def sectionSeen (lectures : List Lecture) (items : Assignment) (s : String) :
    Bool :=
  items.any (fun it =>
    decide ((lectureOfVar lectures it.1).map (fun lec => lec.sectionId) =
      some s))

/-- The number of resolvable sessions of section `s` on day `d` among the
items. -/
def sessionCount (L : Loader) (lectures : List Lecture) (items : Assignment)
    (s d : String) : Nat :=
  items.countP (fun it => decide (sdKey L lectures it = some (s, d)))

theorem sectionSeen_append (lectures : List Lecture) (done : Assignment)
    (it : String × Value) (s : String) :
    sectionSeen lectures (done ++ [it]) s =
      (sectionSeen lectures done s ||
        decide ((lectureOfVar lectures it.1).map (fun lec => lec.sectionId) =
          some s)) := by
  unfold sectionSeen
  rw [List.any_append]
  simp

theorem sessionCount_append (L : Loader) (lectures : List Lecture)
    (done : Assignment) (it : String × Value) (s d : String) :
    sessionCount L lectures (done ++ [it]) s d =
      sessionCount L lectures done s d +
        (if sdKey L lectures it = some (s, d) then 1 else 0) := by
  unfold sessionCount
  rw [List.countP_append]
  simp [List.countP_cons]

/-- The invariant the balance grouping maintains: keys are the seen
sections, and each inner dict holds exactly the positive per-day session
counts of the processed items. -/
def BalanceInv (L : Loader) (lectures : List Lecture) (items : Assignment)
    (m : List (String × List (String × Nat))) : Prop :=
  (dkeys m).Nodup ∧
  ∀ s, (match dget m s with
    | none => sectionSeen lectures items s = false
    | some dc => sectionSeen lectures items s = true ∧ (dkeys dc).Nodup ∧
        ∀ d, dget dc d =
          (if sessionCount L lectures items s d = 0 then none
           else some (sessionCount L lectures items s d)))

theorem balanceInv_nil (L : Loader) (lectures : List Lecture) :
    BalanceInv L lectures [] [] := by
  refine ⟨by simp [dkeys], fun s => ?_⟩
  simp [dget_nil, sectionSeen]

theorem dget_ensureKey_self (m : List (String × List (String × Nat)))
    (k : String) : dget (ensureKey m k) k = some (dgetD m k []) := by
  unfold ensureKey
  cases h : dget m k with
  | some dc =>
    rw [if_neg (fun hh => Option.noConfusion hh)]
    simp [dgetD, h]
  | none =>
    rw [if_pos rfl, dget_append, h]
    unfold dgetD
    rw [h]
    simp [dget, List.find?]

theorem dget_ensureKey_ne (m : List (String × List (String × Nat)))
    (k k' : String) (h : k' ≠ k) : dget (ensureKey m k) k' = dget m k' := by
  unfold ensureKey
  cases hg : dget m k with
  | some dc => rw [if_neg (fun hh => Option.noConfusion hh)]
  | none =>
    rw [if_pos rfl, dget_append]
    have hone : dget [(k, ([] : List (String × Nat)))] k' = none := by
      simp [dget, List.find?, decide_eq_false (Ne.symm h)]
    rw [hone]
    cases dget m k' <;> rfl

theorem dkeys_nodup_ensureKey (m : List (String × List (String × Nat)))
    (k : String) (h : (dkeys m).Nodup) : (dkeys (ensureKey m k)).Nodup := by
  unfold ensureKey
  cases hg : dget m k with
  | some dc =>
    rw [if_neg (fun hh => Option.noConfusion hh)]
    exact h
  | none =>
    rw [if_pos rfl]
    have hnotin : k ∉ dkeys m := by
      intro hmem
      rcases List.mem_map.mp hmem with ⟨p, hp, hpk⟩
      exact ((dget_eq_none_iff m k).mp hg p hp) hpk
    unfold dkeys
    rw [List.map_append]
    refine List.Nodup.append h (by simp) ?_
    intro a ha hb
    simp only [List.map_cons, List.map_nil, List.mem_singleton] at hb
    subst hb
    exact hnotin ha

theorem mem_dkeys_ensureKey (m : List (String × List (String × Nat)))
    (k : String) : k ∈ dkeys (ensureKey m k) := by
  have h := dget_ensureKey_self m k
  exact List.mem_map.mpr ⟨(k, dgetD m k []), mem_of_dget_eq_some _ _ _ h, rfl⟩

theorem sdKey_some_of_parts (L : Loader) (lectures : List Lecture)
    (it : String × Value) (lec : Lecture) (day : String)
    (hlec : lectureOfVar lectures it.1 = some lec)
    (hday : tsDayOf L it.2.1 = some day) :
    sdKey L lectures it = some (lec.sectionId, day) := by
  unfold sdKey
  rw [hlec, hday]

theorem sdKey_none_of_lec_none (L : Loader) (lectures : List Lecture)
    (it : String × Value) (hlec : lectureOfVar lectures it.1 = none) :
    sdKey L lectures it = none := by
  unfold sdKey
  rw [hlec]

theorem sdKey_none_of_day_none (L : Loader) (lectures : List Lecture)
    (it : String × Value) (lec : Lecture)
    (hlec : lectureOfVar lectures it.1 = some lec)
    (hday : tsDayOf L it.2.1 = none) :
    sdKey L lectures it = none := by
  unfold sdKey
  rw [hlec, hday]

/-- A section that was never seen has no sessions on any day. -/
theorem sessionCount_eq_zero_of_not_seen (L : Loader)
    (lectures : List Lecture) (items : Assignment) (s d : String)
    (h : sectionSeen lectures items s = false) :
    sessionCount L lectures items s d = 0 := by
  unfold sessionCount
  rw [List.countP_eq_zero]
  intro itx hitx
  intro hkey
  simp only [decide_eq_true_eq] at hkey
  unfold sectionSeen at h
  rw [List.any_eq_false] at h
  refine h itx hitx ?_
  unfold sdKey at hkey
  cases hlec : lectureOfVar lectures itx.1 with
  | none => rw [hlec] at hkey; cases hkey
  | some lec2 =>
    rw [hlec] at hkey
    cases hday : tsDayOf L itx.2.1 with
    | none => rw [hday] at hkey; cases hkey
    | some day2 =>
      rw [hday] at hkey
      simp only at hkey
      have hs2 : lec2.sectionId = s :=
        (Prod.mk.injEq .. ▸ Option.some.inj hkey).1
      simp [hlec, hs2]

/-- The inner day dict the invariant ascribes to one section agrees with
the counts; convenience form for the section key in the accumulator. -/
theorem balanceInv_carry (L : Loader) (lectures : List Lecture)
    (done : Assignment) (it : String × Value) (s : String)
    (m : List (String × List (String × Nat)))
    (hchar : match dget m s with
      | none => sectionSeen lectures done s = false
      | some dc => sectionSeen lectures done s = true ∧ (dkeys dc).Nodup ∧
          ∀ d, dget dc d =
            (if sessionCount L lectures done s d = 0 then none
             else some (sessionCount L lectures done s d)))
    (hseen : sectionSeen lectures (done ++ [it]) s =
      sectionSeen lectures done s)
    (hcount : ∀ d, sessionCount L lectures (done ++ [it]) s d =
      sessionCount L lectures done s d) :
    match dget m s with
    | none => sectionSeen lectures (done ++ [it]) s = false
    | some dc => sectionSeen lectures (done ++ [it]) s = true ∧
        (dkeys dc).Nodup ∧
        ∀ d, dget dc d =
          (if sessionCount L lectures (done ++ [it]) s d = 0 then none
           else some (sessionCount L lectures (done ++ [it]) s d)) := by
  cases hget : dget m s with
  | none =>
    rw [hget] at hchar
    rw [hseen]
    exact hchar
  | some dc =>
    rw [hget] at hchar
    refine ⟨by rw [hseen]; exact hchar.1, hchar.2.1, fun d => ?_⟩
    rw [hcount d]
    exact hchar.2.2 d

/-- The positive-count characterisation of the day dict stored (or about
to be stored) for a section. -/
theorem balanceInv_inner (L : Loader) (lectures : List Lecture)
    (done : Assignment) (s : String)
    (m : List (String × List (String × Nat)))
    (hchar : match dget m s with
      | none => sectionSeen lectures done s = false
      | some dc => sectionSeen lectures done s = true ∧ (dkeys dc).Nodup ∧
          ∀ d, dget dc d =
            (if sessionCount L lectures done s d = 0 then none
             else some (sessionCount L lectures done s d))) :
    (dkeys (dgetD m s [])).Nodup ∧
    ∀ d, dget (dgetD m s []) d =
      (if sessionCount L lectures done s d = 0 then none
       else some (sessionCount L lectures done s d)) := by
  cases hget : dget m s with
  | none =>
    rw [hget] at hchar
    constructor
    · simp [dgetD, hget, dkeys]
    · intro d
      rw [sessionCount_eq_zero_of_not_seen L lectures done s d hchar]
      simp [dgetD, hget, dget_nil]
  | some dc =>
    rw [hget] at hchar
    exact ⟨by simpa [dgetD, hget] using hchar.2.1,
      fun d => by simpa [dgetD, hget] using hchar.2.2 d⟩

/-- One item preserves the balance invariant. -/
theorem balanceInv_step (L : Loader) (lectures : List Lecture)
    (done : Assignment) (it : String × Value)
    (m : List (String × List (String × Nat)))
    (hinv : BalanceInv L lectures done m) :
    BalanceInv L lectures (done ++ [it]) (balanceStep L lectures m it) := by
  obtain ⟨hnodup, hchar⟩ := hinv
  unfold balanceStep
  cases hlec : lectureOfVar lectures it.1 with
  | none =>
    refine ⟨hnodup, fun s => ?_⟩
    refine balanceInv_carry L lectures done it s m (hchar s) ?_ ?_
    · rw [sectionSeen_append, hlec]
      simp
    · intro d
      rw [sessionCount_append, sdKey_none_of_lec_none L lectures it hlec]
      simp
  | some lec =>
    cases hday : tsDayOf L it.2.1 with
    | none =>
      refine ⟨dkeys_nodup_ensureKey m lec.sectionId hnodup, fun s => ?_⟩
      have hcount : ∀ d, sessionCount L lectures (done ++ [it]) s d =
          sessionCount L lectures done s d := by
        intro d
        rw [sessionCount_append,
          sdKey_none_of_day_none L lectures it lec hlec hday]
        simp
      by_cases hs : s = lec.sectionId
      · subst hs
        rw [dget_ensureKey_self]
        obtain ⟨hinner1, hinner2⟩ := balanceInv_inner L lectures done
          lec.sectionId m (hchar lec.sectionId)
        refine ⟨?_, hinner1, fun d => ?_⟩
        · rw [sectionSeen_append, hlec]
          simp
        · rw [hcount d]
          exact hinner2 d
      · rw [dget_ensureKey_ne m lec.sectionId s hs]
        have hne : ¬ (lec.sectionId = s) := fun hh => hs hh.symm
        refine balanceInv_carry L lectures done it s m (hchar s) ?_ hcount
        rw [sectionSeen_append, hlec]
        simp [hne]
    | some day =>
      have hkeyit : sdKey L lectures it = some (lec.sectionId, day) :=
        sdKey_some_of_parts L lectures it lec day hlec hday
      have hm1nodup := dkeys_nodup_ensureKey m lec.sectionId hnodup
      have hdgetD : dgetD (ensureKey m lec.sectionId) lec.sectionId [] =
          dgetD m lec.sectionId [] := by
        unfold dgetD
        rw [dget_ensureKey_self]
        rfl
      refine ⟨?_, fun s => ?_⟩
      · rw [dkeys_dinsert_subset _ _ _ (mem_dkeys_ensureKey m lec.sectionId)]
        exact hm1nodup
      · by_cases hs : s = lec.sectionId
        · subst hs
          rw [dget_dinsert_self, hdgetD]
          obtain ⟨hinner1, hinner2⟩ := balanceInv_inner L lectures done
            lec.sectionId m (hchar lec.sectionId)
          refine ⟨?_, dkeys_nodup_bumpCount _ day hinner1, fun d => ?_⟩
          · rw [sectionSeen_append, hlec]
            simp
          · by_cases hd : d = day
            · subst hd
              rw [dget_bumpCount_self]
              have hcnt : sessionCount L lectures (done ++ [it])
                  lec.sectionId d = sessionCount L lectures done
                    lec.sectionId d + 1 := by
                rw [sessionCount_append, hkeyit]
                simp
              rw [hcnt]
              have hgetD0 : (dget (dgetD m lec.sectionId []) d).getD 0 =
                  sessionCount L lectures done lec.sectionId d := by
                rw [hinner2 d]
                by_cases h0 : sessionCount L lectures done lec.sectionId d = 0
                · simp [h0]
                · simp [h0]
              rw [hgetD0]
              simp
            · rw [dget_bumpCount_ne _ day d hd]
              have hdne : ¬ (day = d) := fun hh => hd hh.symm
              have hcnt : sessionCount L lectures (done ++ [it])
                  lec.sectionId d = sessionCount L lectures done
                    lec.sectionId d := by
                rw [sessionCount_append, hkeyit]
                simp [hdne]
              rw [hcnt]
              exact hinner2 d
        · rw [dget_dinsert_ne _ lec.sectionId s _ hs,
            dget_ensureKey_ne m lec.sectionId s hs]
          have hne : ¬ (lec.sectionId = s) := fun hh => hs hh.symm
          refine balanceInv_carry L lectures done it s m (hchar s) ?_ ?_
          · rw [sectionSeen_append, hlec]
            simp [hne]
          · intro d
            rw [sessionCount_append, hkeyit]
            simp [hne]

theorem balanceInv_foldl (L : Loader) (lectures : List Lecture) :
    ∀ (rest done : Assignment) (m : List (String × List (String × Nat))),
      BalanceInv L lectures done m →
      BalanceInv L lectures (done ++ rest)
        (rest.foldl (balanceStep L lectures) m) := by
  intro rest
  induction rest with
  | nil =>
    intro done m h
    simpa using h
  | cons it rest ih =>
    intro done m h
    rw [List.foldl_cons]
    have h3 := ih (done ++ [it]) (balanceStep L lectures m it)
      (balanceInv_step L lectures done it m h)
    simpa [List.append_assoc] using h3

theorem balanceInv_balanceGroups (L : Loader) (assignment : Assignment)
    (lectures : List Lecture) :
    BalanceInv L lectures assignment (balanceGroups L assignment lectures) := by
  rw [balanceGroups_eq_fold]
  have h := balanceInv_foldl L lectures assignment [] []
    (balanceInv_nil L lectures)
  simpa using h

theorem sessionDayOf_eq_some_iff (L : Loader) (lectures : List Lecture)
    (s : String) (it : String × Value) (d : String) :
    sessionDayOf L lectures s it = some d ↔
      sdKey L lectures it = some (s, d) := by
  unfold sessionDayOf sdKey
  cases lectureOfVar lectures it.1 with
  | none => simp
  | some lec =>
    cases tsDayOf L it.2.1 with
    | none =>
      by_cases hs : lec.sectionId = s <;> simp [hs]
    | some day =>
      by_cases hs : lec.sectionId = s
      · simp [hs, eq_comm]
      · simp [hs, fun hh : s = lec.sectionId => hs hh.symm]

theorem sessionDays_count (L : Loader) (assignment : Assignment)
    (lectures : List Lecture) (s d : String) :
    (sessionDays L assignment lectures s).count d =
      sessionCount L lectures assignment s d := by
  unfold sessionDays sessionCount
  rw [List.count_filterMap]
  apply List.countP_congr
  intro it _
  rw [beq_iff_eq, decide_eq_true_eq]
  exact sessionDayOf_eq_some_iff L lectures s it d

theorem mem_sessionDays_iff (L : Loader) (assignment : Assignment)
    (lectures : List Lecture) (s d : String) :
    d ∈ sessionDays L assignment lectures s ↔
      sessionCount L lectures assignment s d ≠ 0 := by
  rw [← List.count_pos_iff, sessionDays_count]
  exact Nat.pos_iff_ne_zero

theorem mem_sectionsOf_iff (assignment : Assignment)
    (lectures : List Lecture) (s : String) :
    s ∈ sectionsOf assignment lectures ↔
      sectionSeen lectures assignment s = true := by
  unfold sectionsOf sectionSeen
  rw [List.mem_dedup, List.mem_filterMap, List.any_eq_true]
  simp

theorem sectionsOf_nodup (assignment : Assignment) (lectures : List Lecture) :
    (sectionsOf assignment lectures).Nodup :=
  List.nodup_dedup _

theorem listVariance_perm (l1 l2 : List ℚ) (h : l1.Perm l2) :
    listVariance l1 = listVariance l2 := by
  unfold listVariance listMean
  rw [h.sum_eq, h.length_eq, (h.map _).sum_eq]

/-- The per-entry facts the invariant gives for `balanceGroups`. -/
theorem balanceGroups_entry (L : Loader) (assignment : Assignment)
    (lectures : List Lecture) (g : String × List (String × Nat))
    (hg : g ∈ balanceGroups L assignment lectures) :
    sectionSeen lectures assignment g.1 = true ∧ (dkeys g.2).Nodup ∧
    ∀ d, dget g.2 d =
      (if sessionCount L lectures assignment g.1 d = 0 then none
       else some (sessionCount L lectures assignment g.1 d)) := by
  obtain ⟨hnodup, hchar⟩ := balanceInv_balanceGroups L assignment lectures
  have hget : dget (balanceGroups L assignment lectures) g.1 = some g.2 :=
    dget_of_mem_of_nodup _ g hg hnodup
  have h := hchar g.1
  rw [hget] at h
  exact h

/-- One section's balance term over only the days on which the section
actually has sessions — what the code computes. -/
noncomputable def amendedSectionBonus (L : Loader) (assignment : Assignment)
    (lectures : List Lecture) (s : String) : ℝ :=
  max 0 (5 - Real.sqrt ((listVariance
    (((sessionDays L assignment lectures s).dedup).map
      (fun d => (((sessionDays L assignment lectures s).count d : ℚ)))) :
    ℚ) : ℝ)) * 5

/-- The balance bonus the code computes, in closed form: summed over the
sections with at least one resolvable session, each over its own session
days only. -/
noncomputable def amendedBalanceBonus (L : Loader) (assignment : Assignment)
    (lectures : List Lecture) : ℝ :=
  (((sectionsOf assignment lectures).filter
      (fun s => decide (sessionDays L assignment lectures s ≠ []))).map
    (amendedSectionBonus L assignment lectures)).sum

/-- The stored day dict of an entry carries exactly the section's present
days and their counts, so its score is the section's amended term. -/
theorem balanceScoreOf_entry_eq (L : Loader) (assignment : Assignment)
    (lectures : List Lecture) (g : String × List (String × Nat))
    (hg : g ∈ balanceGroups L assignment lectures) :
    balanceScoreOf g.2 = amendedSectionBonus L assignment lectures g.1 := by
  obtain ⟨_, hnodup2, hcharD⟩ := balanceGroups_entry L assignment lectures g hg
  have hkeys_mem : ∀ d, d ∈ dkeys g.2 ↔
      d ∈ (sessionDays L assignment lectures g.1).dedup := by
    intro d
    rw [List.mem_dedup, mem_sessionDays_iff]
    constructor
    · intro hd
      rcases List.mem_map.mp hd with ⟨q, hq, hqd⟩
      have hgetq : dget g.2 q.1 = some q.2 :=
        dget_of_mem_of_nodup _ q hq hnodup2
      rw [hcharD q.1] at hgetq
      by_cases h0 : sessionCount L lectures assignment g.1 q.1 = 0
      · rw [if_pos h0] at hgetq; cases hgetq
      · rw [← hqd]
        exact h0
    · intro h0
      have hd : dget g.2 d = some (sessionCount L lectures assignment g.1 d) := by
        rw [hcharD d, if_neg h0]
      exact List.mem_map.mpr ⟨(d, sessionCount L lectures assignment g.1 d),
        mem_of_dget_eq_some _ _ _ hd, rfl⟩
  have hperm : (dkeys g.2).Perm ((sessionDays L assignment lectures g.1).dedup) :=
    (List.perm_ext_iff_of_nodup hnodup2
      (List.nodup_dedup _)).mpr hkeys_mem
  have hvals : g.2.map (fun p => ((p.2 : ℚ))) =
      (dkeys g.2).map
        (fun d => (((sessionDays L assignment lectures g.1).count d : ℚ))) := by
    unfold dkeys
    rw [List.map_map]
    apply List.map_congr_left
    intro q hq
    have hgetq : dget g.2 q.1 = some q.2 :=
      dget_of_mem_of_nodup _ q hq hnodup2
    rw [hcharD q.1] at hgetq
    by_cases h0 : sessionCount L lectures assignment g.1 q.1 = 0
    · rw [if_pos h0] at hgetq; cases hgetq
    · rw [if_neg h0] at hgetq
      have hq2 : q.2 = sessionCount L lectures assignment g.1 q.1 :=
        (Option.some.inj hgetq).symm
      simp [Function.comp, hq2, sessionDays_count]
  have hpermvals : (g.2.map (fun p => ((p.2 : ℚ)))).Perm
      (((sessionDays L assignment lectures g.1).dedup).map
        (fun d => (((sessionDays L assignment lectures g.1).count d : ℚ)))) := by
    rw [hvals]
    exact hperm.map _
  simp only [balanceScoreOf, amendedSectionBonus]
  rw [listVariance_perm _ _ hpermvals]

/-- An entry's day dict is empty exactly when its section has no
resolvable session days. -/
theorem balanceGroups_entry_empty_iff (L : Loader) (assignment : Assignment)
    (lectures : List Lecture) (g : String × List (String × Nat))
    (hg : g ∈ balanceGroups L assignment lectures) :
    g.2 = [] ↔ sessionDays L assignment lectures g.1 = [] := by
  obtain ⟨_, hnodup2, hcharD⟩ := balanceGroups_entry L assignment lectures g hg
  constructor
  · intro h
    rw [List.eq_nil_iff_forall_not_mem]
    intro d hd
    have h0 := (mem_sessionDays_iff L assignment lectures g.1 d).mp hd
    have hdget : dget g.2 d = some (sessionCount L lectures assignment g.1 d) := by
      rw [hcharD d, if_neg h0]
    rw [h] at hdget
    cases hdget
  · intro h
    cases hcase : g.2 with
    | nil => rfl
    | cons q rest =>
      exfalso
      have hq : q ∈ g.2 := by rw [hcase]; exact List.mem_cons_self q rest
      have hgetq : dget g.2 q.1 = some q.2 :=
        dget_of_mem_of_nodup _ q hq hnodup2
      rw [hcharD q.1] at hgetq
      by_cases h0 : sessionCount L lectures assignment g.1 q.1 = 0
      · rw [if_pos h0] at hgetq
        cases hgetq
      · have := (mem_sessionDays_iff L assignment lectures g.1 q.1).mpr h0
        rw [h] at this
        cases this

/-- The keys of the balance grouping are exactly the sections present. -/
theorem balanceGroups_keys_perm (L : Loader) (assignment : Assignment)
    (lectures : List Lecture) :
    (dkeys (balanceGroups L assignment lectures)).Perm
      (sectionsOf assignment lectures) := by
  obtain ⟨hnodup, hchar⟩ := balanceInv_balanceGroups L assignment lectures
  refine (List.perm_ext_iff_of_nodup hnodup
    (sectionsOf_nodup assignment lectures)).mpr ?_
  intro s
  rw [mem_sectionsOf_iff]
  constructor
  · intro hs
    rcases List.mem_map.mp hs with ⟨p, hp, hps⟩
    have hget : dget (balanceGroups L assignment lectures) p.1 = some p.2 :=
      dget_of_mem_of_nodup _ p hp hnodup
    have h := hchar p.1
    rw [hget] at h
    rw [← hps]
    exact h.1
  · intro hs
    have h := hchar s
    cases hget : dget (balanceGroups L assignment lectures) s with
    | none =>
      rw [hget] at h
      rw [h] at hs
      cases hs
    | some dc =>
      exact List.mem_map.mpr ⟨(s, dc), mem_of_dget_eq_some _ _ _ hget, rfl⟩

/-- The balance fold as a filtered sum. -/
theorem foldl_balance_sum :
    ∀ (l : List (String × List (String × Nat))) (acc : ℝ),
      l.foldl (fun acc g => if g.2 = [] then acc else acc + balanceScoreOf g.2)
        acc =
      acc + ((l.filter (fun g => decide (g.2 ≠ []))).map
        (fun g => balanceScoreOf g.2)).sum := by
  intro l
  induction l with
  | nil => intro acc; simp
  | cons g rest ih =>
    intro acc
    rw [List.foldl_cons]
    by_cases hg : g.2 = []
    · rw [if_pos hg, ih]
      have hdec : (decide (g.2 ≠ []) : Bool) = false := by simp [hg]
      rw [List.filter_cons, hdec]
      simp
    · rw [if_neg hg, ih]
      have hdec : (decide (g.2 ≠ []) : Bool) = true := by simp [hg]
      rw [List.filter_cons, hdec]
      simp [add_assoc]

theorem calculateBalanceBonus_eq_sum (L : Loader) (assignment : Assignment)
    (lectures : List Lecture) :
    calculateBalanceBonus L assignment lectures =
      (((balanceGroups L assignment lectures).filter
          (fun g => decide (g.2 ≠ []))).map
        (fun g => balanceScoreOf g.2)).sum := by
  unfold calculateBalanceBonus
  rw [foldl_balance_sum]
  simp

/-- **C7** (amended). The code's balance bonus equals, for every loader,
assignment and lecture list, the sum over the sections having at least one
resolvable session of `max(0, 5 − stddev) × weight`, where the population
standard deviation ranges over only the weekdays on which that section has
at least one session (weekdays with zero sessions are *not* counted). -/
theorem balance_bonus_over_present_days (L : Loader) (assignment : Assignment)
    (lectures : List Lecture) :
    calculateBalanceBonus L assignment lectures =
      amendedBalanceBonus L assignment lectures := by
  rw [calculateBalanceBonus_eq_sum]
  have h1 : ((balanceGroups L assignment lectures).filter
        (fun g => decide (g.2 ≠ []))).map (fun g => balanceScoreOf g.2) =
      ((balanceGroups L assignment lectures).filter
        (fun g => decide (g.2 ≠ []))).map
          (fun g => amendedSectionBonus L assignment lectures g.1) := by
    apply List.map_congr_left
    intro g hgf
    exact balanceScoreOf_entry_eq L assignment lectures g
      (List.mem_of_mem_filter hgf)
  rw [h1]
  have h2 : (balanceGroups L assignment lectures).filter
        (fun g => decide (g.2 ≠ [])) =
      (balanceGroups L assignment lectures).filter
        (fun g => decide (sessionDays L assignment lectures g.1 ≠ [])) := by
    apply List.filter_congr
    intro g hgmem
    simp only [decide_eq_decide]
    exact not_congr (balanceGroups_entry_empty_iff L assignment lectures g hgmem)
  rw [h2]
  have h3 : (((dkeys (balanceGroups L assignment lectures)).filter
        (fun s => decide (sessionDays L assignment lectures s ≠ []))).map
      (amendedSectionBonus L assignment lectures)) =
      ((balanceGroups L assignment lectures).filter
        (fun g => decide (sessionDays L assignment lectures g.1 ≠ []))).map
          (fun g => amendedSectionBonus L assignment lectures g.1) := by
    unfold dkeys
    rw [List.filter_map, List.map_map]
    rfl
  rw [← h3]
  unfold amendedBalanceBonus
  exact (((balanceGroups_keys_perm L assignment lectures).filter _).map _).sum_eq

end CSPTimetable
